import Mathlib

/-!
Verification development for the ant-intelligence simulation engine.

The C++ engine (Ant.cpp / Ground.cpp) is shallowly embedded below.
Machine integers are modelled as `Int`/`Nat`, C++ `double` values used for
probabilities and random draws are modelled as exact rationals `ℚ`, and the
`std::shared_ptr<Object>` identity of a ground object is modelled by the
structure `Object` carrying a unique identifier together with its dynamic
category code (`shared_ptr` equality is pointer identity, so two `Object`
values compare equal exactly when both fields agree).  Fallible lookups
return `Option`.  Random generators are modelled as explicit streams of
draws; `std::discrete_distribution`/`std::uniform_int_distribution` are
modelled abstractly as deterministic functions of the next generator draw.
-/

/-- Grid coordinate, the C++ `std::pair<int, int>`. -/
abbrev Cell : Type := ℤ × ℤ

/-- A ground object: `id` distinguishes distinct `shared_ptr` instances,
`cat` is the dynamic type (1 = Food, 2 = Waste, 3 = Egg, anything else a
plain `Object`).  Equality of two `Object` values models `shared_ptr`
(pointer) equality. -/
structure Object where
  id : ℕ
  cat : ℕ
deriving DecidableEq, Repr

/-- The eight relative offsets of `Ground::getPossiblePositions`, in source
order N, NE, E, SE, S, SW, W, NW. -/
def neighborOffsets : List Cell :=
  [(0, -1), (1, -1), (1, 0), (1, 1), (0, 1), (-1, 1), (-1, 0), (-1, -1)]

/-- Bounds check `0 <= x < width && 0 <= y < length`. -/
def inBounds (W L : ℕ) (c : Cell) : Bool :=
  decide (0 ≤ c.1 ∧ c.1 < (W : ℤ) ∧ 0 ≤ c.2 ∧ c.2 < (L : ℤ))

/-- Per-cell view of the adjacency map built by
`Ground::getPossiblePositions`: translate the eight offsets and keep the
in-bounds results, preserving order. -/
def getPossiblePositions (W L : ℕ) (c : Cell) : List Cell :=
  (neighborOffsets.map (fun o => (c.1 + o.1, c.2 + o.2))).filter (inBounds W L)

/-- Row-major enumeration of the grid cells, matching the
`for x ... for y ...` loops of `Ground`. -/
def cellList (W L : ℕ) : List Cell :=
  (List.range W).flatMap (fun x => (List.range L).map (fun y => (Int.ofNat x, Int.ofNat y)))

/-- The grid as a finite set (used in proofs and in the specification-side
definitions). -/
def gridFinset (W L : ℕ) : Finset Cell :=
  ((Finset.range W) ×ˢ (Finset.range L)).image (fun p => ((p.1 : ℤ), (p.2 : ℤ)))

/-- Dynamic type code of an object, modelling the
`dynamic_pointer_cast<Food/Waste/Egg>` chain (`Ant::updateMemory`,
`getTypeFromLoad`): Food ↦ 1, Waste ↦ 2, Egg ↦ 3, otherwise 0. -/
def objectTypeOf (o : Object) : ℕ :=
  if o.cat = 1 then 1 else if o.cat = 2 then 2 else if o.cat = 3 then 3 else 0

/-- Category code of an optional carried object (`getTypeFromLoad`). -/
def loadTypeOf (l : Option Object) : ℕ :=
  match l with
  | none => 0
  | some o => objectTypeOf o

/-- State of one `Ant`.  The path-recording fields (`recordPath`,
`visitedPositions`), which no claim mentions, are omitted. -/
structure AntState where
  position : Cell
  memorySize : ℕ
  memory : List ℕ
  load : Option Object
  prevDirection : ℕ
  interactionCooldown : ℤ
deriving DecidableEq, Repr

/-- `Ant::updateMemory`: ignore a null pointer; compute the category code;
if it is non-zero, append it to the memory, first evicting the oldest entry
(`std::rotate` then overwrite of `back()`) when the memory is at capacity.
(When `memory` is empty and `memorySize = 0` the C++ rotate/back pair is
undefined behaviour; the model then yields `[code]`.) -/
def updateMemory (a : AntState) (seenObject : Option Object) : AntState :=
  match seenObject with
  | none => a
  | some o =>
    let objectType := objectTypeOf o
    if objectType ≠ 0 then
      if a.memorySize ≤ a.memory.length then
        { a with memory := a.memory.drop 1 ++ [objectType] }
      else
        { a with memory := a.memory ++ [objectType] }
    else a

/-- `Ground::reluRange`: clamped linear ramp. -/
def reluRange (x a b : ℚ) : ℚ :=
  if x < a then 0 else if b < x then 1 else (x - a) / (b - a)

/-- `Ground::countNeighbors`: number of legal neighbor cells whose occupant
is the *same object reference* (`shared_ptr` equality) as `objType`. -/
def countNeighbors (W L : ℕ) (occ : Cell → Option Object) (pos : Cell)
    (objType : Object) : ℕ :=
  ((getPossiblePositions W L pos).filter (fun n => occ n = some objType)).length

/-- Body of the `Ground::assignWork` loop for a single ant.  `occ` is the
occupancy map (`obj`), with `none` standing both for an absent entry and a
stored null pointer (the code treats the two identically); `pr` is
`(probRelu[0], probRelu[1])`; `draw` is the uniform draw `dist(gen)`.
Returns the updated ant and occupancy map. -/
def assignWorkStep (W L : ℕ) (occ : Cell → Option Object) (pr : ℚ × ℚ)
    (a : AntState) (draw : ℚ) : AntState × (Cell → Option Object) :=
  let pos := a.position
  let groundObject := occ pos
  let carried := a.load
  let a1 := updateMemory a groundObject
  match carried with
  | none =>
    match groundObject with
    | none => (a1, occ)
    | some ob =>
      let neighborCount := countNeighbors W L occ pos ob
      let pickProb := reluRange ((neighborCount : ℚ) / ((getPossiblePositions W L pos).length : ℚ))
        pr.1 pr.2
      if pickProb < draw then
        (updateMemory { a1 with load := some ob } (some ob),
          fun c => if c = pos then none else occ c)
      else (a1, occ)
  | some c =>
    let a2 := updateMemory a1 (some c)
    let neighborCount := countNeighbors W L occ pos c
    let dropProb := reluRange ((neighborCount : ℚ) / ((getPossiblePositions W L pos).length : ℚ))
      pr.1 pr.2
    if draw ≤ dropProb then
      match groundObject with
      | none =>
        (updateMemory { a2 with load := none } (some c),
          fun q => if q = pos then some c else occ q)
      | some gobj =>
        (updateMemory (updateMemory { a2 with load := some gobj } (some c)) (some gobj),
          fun q => if q = pos then some c else occ q)
    else (a2, occ)

/-- Specification-side density: number of legal neighbor cells whose
occupant has the given *category code* (the spec's "same-category
occupants"), regardless of reference identity. -/
def countNeighborsSameCategory (W L : ℕ) (occ : Cell → Option Object) (pos : Cell)
    (catCode : ℕ) : ℕ :=
  ((getPossiblePositions W L pos).filter
    (fun n => (occ n).map objectTypeOf = some catCode)).length

/-- Validity test of `Ground::averageClusterSize` on a seed occupant: the
chain of `dynamic_pointer_cast` checks against Food, Waste and Egg. -/
def isValidType (o : Object) : Bool :=
  decide (o.cat = 1 ∨ o.cat = 2 ∨ o.cat = 3)

/-- Loop of `Ground::bfsCluster`, structurally recursive on an explicit
fuel (the C++ loop `while (index < queue.size())` always terminates; the
fuel supplied by `bfsCluster` is proven large enough below).  The queue is
the not-yet-processed suffix of the C++ `queue` vector; new entries are
appended at the end.  The C++ accumulates the size in a `double` by `+= 1.0`;
the model counts in `ℕ` (the caller casts). -/
def bfsClusterAux (W L : ℕ) (occ : Cell → Option Object) (targetObj : Object) :
    ℕ → List Cell → Finset Cell → ℕ × Finset Cell
  | 0, _, visited => (0, visited)
  | _ + 1, [], visited => (0, visited)
  | fuel + 1, current :: rest, visited =>
    if current ∈ visited then bfsClusterAux W L occ targetObj fuel rest visited
    else
      if occ current = some targetObj then
        let r := bfsClusterAux W L occ targetObj fuel
          (rest ++ (getPossiblePositions W L current).filter
            (fun n => n ∉ insert current visited))
          (insert current visited)
        (r.1 + 1, r.2)
      else
        bfsClusterAux W L occ targetObj fuel rest (insert current visited)

/-- Fuel bound for `bfsClusterAux` (each iteration either consumes a queue
entry of an already-visited cell or visits a new cell, pushing at most 8
neighbors). -/
def bfsFuel (W L : ℕ) : ℕ :=
  9 * (W * L + 1) + 1

/-- `Ground::bfsCluster`: bounds check on the start position, then the
traversal seeded with a one-element queue. -/
def bfsCluster (W L : ℕ) (occ : Cell → Option Object) (startPos : Cell)
    (targetObj : Object) (visitedLocations : Finset Cell) : ℕ × Finset Cell :=
  if inBounds W L startPos then
    bfsClusterAux W L occ targetObj (bfsFuel W L) [startPos] visitedLocations
  else (0, visitedLocations)

/-- Scan loop of `Ground::averageClusterSize` over the row-major cell list,
threading the visited set and accumulating the recorded cluster sizes. -/
def avgLoop (W L : ℕ) (occ : Cell → Option Object) :
    List Cell → Finset Cell → List ℕ → List ℕ
  | [], _, clusterSizes => clusterSizes
  | pos :: rest, visited, clusterSizes =>
    if pos ∈ visited then avgLoop W L occ rest visited clusterSizes
    else
      match occ pos with
      | none => avgLoop W L occ rest (insert pos visited) clusterSizes
      | some o =>
        if isValidType o then
          let r := bfsCluster W L occ pos o visited
          if 0 < r.1 then avgLoop W L occ rest r.2 (clusterSizes ++ [r.1])
          else avgLoop W L occ rest r.2 clusterSizes
        else avgLoop W L occ rest (insert pos visited) clusterSizes

/-- `Ground::averageClusterSize`: mean of the recorded cluster sizes, `0`
when none were recorded. -/
def averageClusterSize (W L : ℕ) (occ : Cell → Option Object) : ℚ :=
  let clusterSizes := avgLoop W L occ (cellList W L) ∅ []
  if clusterSizes.isEmpty then 0
  else ((clusterSizes.sum : ℚ)) / (clusterSizes.length : ℚ)

/-- Specification-side adjacency: cells `c` and `d` are linked when `d` is a
legal neighbor of `c` and both hold the *same ground-object reference*. -/
def sameRefAdj (W L : ℕ) (occ : Cell → Option Object) (c d : Cell) : Bool :=
  decide (d ∈ getPossiblePositions W L c) && (occ c).isSome && decide (occ c = occ d)

/-- One expansion step of the specification-side connected component:
add every grid cell linked to the current set. -/
def specCompStep (W L : ℕ) (occ : Cell → Option Object) (S : Finset Cell) : Finset Cell :=
  S ∪ (gridFinset W L).filter (fun d => ∃ c ∈ S, sameRefAdj W L occ c d = true)

/-- Specification-side connected component of a cell: saturate the
expansion (at most `W*L` strict growth steps are possible within the grid). -/
def specComponent (W L : ℕ) (occ : Cell → Option Object) (c : Cell) : Finset Cell :=
  (specCompStep W L occ)^[W * L] {c}

/-- Does a cell hold an object of a valid category? -/
def occupiedValid (occ : Cell → Option Object) (c : Cell) : Bool :=
  match occ c with
  | some o => isValidType o
  | none => false

/-- Specification-side collection of connected components of the occupied
(valid-category) cells. -/
def specComponents (W L : ℕ) (occ : Cell → Option Object) : Finset (Finset Cell) :=
  ((gridFinset W L).filter (fun c => occupiedValid occ c = true)).image
    (specComponent W L occ)

/-- Specification-side cluster metric, following the spec's words: the
arithmetic mean of the sizes of all connected components (same-reference
adjacency partition of the occupied cells), or 0 if no components exist. -/
def specAverageClusterSize (W L : ℕ) (occ : Cell → Option Object) : ℚ :=
  let comps := specComponents W L occ
  if comps = ∅ then 0
  else ((∑ S ∈ comps, (S.card : ℚ))) / (comps.card : ℚ)

/-- Indices of the agents standing on cell `c`, in increasing order — the
entry `positionsMap[c]` built at the top of `Ground::handleAntInteractions`
(indices are pushed in loop order). -/
def agentsAt (agents : List AntState) (c : Cell) : List ℕ :=
  (List.range agents.length).filter
    (fun j => match agents[j]? with
      | some b => decide (b.position = c)
      | none => false)

/-- Similarity of agent `j` to a load category: `std::count` over the
memory of `agents[j]` (0 for an out-of-range index, which never occurs). -/
def simAt (agents : List AntState) (loadType : ℕ) (j : ℕ) : ℕ :=
  match agents[j]? with
  | some b => b.memory.count loadType
  | none => 0

/-- Previous direction of agent `j` (0 for an out-of-range index, which
never occurs). -/
def prevDirAt (agents : List AntState) (j : ℕ) : ℕ :=
  match agents[j]? with
  | some b => b.prevDirection
  | none => 0

/-- Phase A of `Ground::handleAntInteractions`: process agent indices in
order.  An agent with non-zero cooldown or empty carried slot is skipped;
otherwise its neighbor cells are scanned in topology order and, within a
cell, agent indices in `positionsMap` order; the first agent `B` whose
memory contains at least `similarityThreshold` occurrences of the carried
category fires the interaction (counter incremented, `prevDirection`
reversed relative to the *current* `B`, cooldown set), and scanning for
this agent stops.  `agents0` is the list from which `positionsMap` was
built (positions never change during the pass). -/
def phaseAGo (W L : ℕ) (similarityThreshold cooldownDuration : ℤ)
    (agents0 : List AntState) :
    List ℕ → List AntState → ℕ → List AntState × ℕ
  | [], agents, counter => (agents, counter)
  | i :: rest, agents, counter =>
    match agents[i]? with
    | none => phaseAGo W L similarityThreshold cooldownDuration agents0 rest agents counter
    | some a =>
      if a.interactionCooldown ≠ 0 ∨ a.load = none then
        phaseAGo W L similarityThreshold cooldownDuration agents0 rest agents counter
      else
        let candidates := (getPossiblePositions W L a.position).flatMap (agentsAt agents0)
        match candidates.find?
          (fun j => decide (similarityThreshold ≤ (simAt agents (loadTypeOf a.load) j : ℤ))) with
        | none => phaseAGo W L similarityThreshold cooldownDuration agents0 rest agents counter
        | some j =>
          phaseAGo W L similarityThreshold cooldownDuration agents0 rest
            (agents.set i { a with
              prevDirection := (prevDirAt agents j + 4) % 8,
              interactionCooldown := cooldownDuration })
            (counter + 1)

/-- `Ground::handleAntInteractions`: Phase A over all agent indices, then
Phase B decrementing every strictly positive cooldown by one. -/
def handleAntInteractions (W L : ℕ) (similarityThreshold cooldownDuration : ℤ)
    (agents : List AntState) (interactionCounter : ℕ) : List AntState × ℕ :=
  let r := phaseAGo W L similarityThreshold cooldownDuration agents
    (List.range agents.length) agents interactionCounter
  (r.1.map (fun a =>
    if 0 < a.interactionCooldown then
      { a with interactionCooldown := a.interactionCooldown - 1 }
    else a), r.2)

/-- Firing condition for agent `i`, computed from the pre-step state: zero
cooldown, non-empty carried slot, and some agent in a neighbor cell whose
memory holds at least `similarityThreshold` occurrences of the carried
category. -/
def firesB (W L : ℕ) (similarityThreshold : ℤ) (agents : List AntState) (i : ℕ) : Bool :=
  match agents[i]? with
  | none => false
  | some a =>
    decide (a.interactionCooldown = 0) && a.load.isSome &&
      (List.range agents.length).any (fun j =>
        match agents[j]? with
        | some b =>
          decide (b.position ∈ getPossiblePositions W L a.position) &&
            decide (similarityThreshold ≤ (b.memory.count (loadTypeOf a.load) : ℤ))
        | none => false)

/-- Repeated `Ant::updateMemory` with a list of category codes (each
wrapped in a fresh object of that category). -/
def applyMemoryUpdates (a : AntState) (l : List ℕ) : AntState :=
  l.foldl (fun st c => updateMemory st (some ⟨0, c⟩)) a

/-- An explicit random source: a stream of raw draws.  One draw is consumed
per distribution sample. -/
def RngStream : Type := ℕ → ℕ

/-- Advance a stream past its first draw. -/
def rngTail (s : RngStream) : RngStream := fun k => s (k + 1)

/-- Abstract model of sampling a standard-library distribution over `n`
outcomes: a deterministic function of the next generator draw with result
in `[0, n)` (the library guarantees exactly this; its internal arithmetic
is outside the repository). -/
def sampleIndex (n : ℕ) (r : ℕ) : ℕ := r % n

/-- Right rotation by `n` places, the effect of
`std::rotate(shifted.rbegin(), shifted.rbegin() + n, shifted.rend())`. -/
def rotateRightBy (l : List ℚ) (n : ℕ) : List ℚ :=
  if l.length = 0 then l
  else l.drop (l.length - n % l.length) ++ l.take (l.length - n % l.length)

/-- `Ant::getRandomWeightedDirection`: rotate the base probabilities by the
previous direction and sample the discrete distribution.  CRUCIALLY, the
C++ function draws from a function-local `static std::mt19937`, not from
any caller-supplied generator; the model therefore takes that hidden
generator explicitly and returns its advanced state. -/
def getRandomWeightedDirection (probabilities : List ℚ) (prevDirection : ℕ)
    (hiddenGen : RngStream) : ℕ × RngStream :=
  let n := prevDirection % probabilities.length
  let shifted := rotateRightBy probabilities n
  (sampleIndex shifted.length (hiddenGen 0), rngTail hiddenGen)

/-- The `movementDict` table of `Ant::updateMovementDict`. -/
def movementDict : List (ℕ × Cell) :=
  [(0, (0, -1)), (1, (1, -1)), (2, (1, 0)), (3, (1, 1)),
   (4, (0, 1)), (5, (-1, 1)), (6, (-1, 0)), (7, (-1, -1))]

/-- Offset for a direction (`movementDict[d]`; `(0,0)` for an absent key,
matching `operator[]` default construction). -/
def movementOffset (d : ℕ) : Cell :=
  ((movementDict.lookup d).getD (0, 0))

/-- Inverse table lookup (`invMovementDict`), as an `Option`. -/
def invMovementDict (delta : Cell) : Option ℕ :=
  (movementDict.find? (fun p => p.2 = delta)).map (fun p => p.1)

/-- `Ant::move` (current version, taking the caller's generator `gen` by
reference).  On a fully interior cell (8 neighbors) the direction is drawn
by `getRandomWeightedDirection` — from the *hidden* static generator; on a
boundary cell a uniform index into the neighbor list is drawn from the
caller-supplied `gen` (`std::uniform_int_distribution(0, size-1)(gen)`,
modelled via `sampleIndex`).  Returns the updated ant, the advanced
caller-supplied stream, and the advanced hidden stream. -/
def move (W L : ℕ) (probabilities : List ℚ) (a : AntState)
    (gen hiddenGen : RngStream) : AntState × RngStream × RngStream :=
  if inBounds W L a.position then
    let nextStepsList := getPossiblePositions W L a.position
    if nextStepsList.length = 8 then
      let r := getRandomWeightedDirection probabilities a.prevDirection hiddenGen
      let off := movementOffset r.1
      ({ a with
          position := (a.position.1 + off.1, a.position.2 + off.2),
          prevDirection := r.1 }, gen, r.2)
    else
      let newPos := nextStepsList.getD (sampleIndex nextStepsList.length (gen 0)) a.position
      let delta : Cell := (newPos.1 - a.position.1, newPos.2 - a.position.2)
      ({ a with
          position := newPos,
          prevDirection := (invMovementDict delta).getD a.prevDirection },
        rngTail gen, hiddenGen)
  else (a, gen, hiddenGen)

/-- A Food instance (category code 1). -/
def foodA : Object := ⟨0, 1⟩

/-- A second, distinct Food instance (same category, different
`shared_ptr`). -/
def foodB : Object := ⟨1, 1⟩

/-- An agent at `p` carrying nothing, with empty memory. -/
def antEmptyAt (p : Cell) : AntState :=
  { position := p, memorySize := 20, memory := [], load := none,
    prevDirection := 0, interactionCooldown := 0 }

/-- An agent at `p` carrying `o`, with empty memory. -/
def antCarrying (p : Cell) (o : Object) : AntState :=
  { antEmptyAt p with load := some o }

/-- Occupancy with two *distinct* Food instances on the two cells of a 1×2
grid. -/
def occTwoFoodRefs : Cell → Option Object := fun c =>
  if c = ((0 : ℤ), (0 : ℤ)) then some foodA
  else if c = ((0 : ℤ), (1 : ℤ)) then some foodB else none

/-- Occupancy with a single Food instance at (0,1) only. -/
def occOneFoodAtSide : Cell → Option Object := fun c =>
  if c = ((0 : ℤ), (1 : ℤ)) then some foodB else none

/-- Occupancy sharing ONE Food instance between the two end cells of a 1×3
grid (as `Ground::addObject` does, placing the same `shared_ptr` on many
cells). -/
def occSharedFood : Cell → Option Object := fun c =>
  if c = ((0 : ℤ), (0 : ℤ)) ∨ c = ((0 : ℤ), (2 : ℤ)) then some foodA else none

/-- Occupancy on a 1×3 grid: `foodA` at (0,0), `foodB` at (0,1) and (0,2) —
a 1-cell cluster adjacent to a 2-cell cluster of a different reference. -/
def occSplitCluster : Cell → Option Object := fun c =>
  if c = ((0 : ℤ), (0 : ℤ)) then some foodA
  else if c = ((0 : ℤ), (1 : ℤ)) ∨ c = ((0 : ℤ), (2 : ℤ)) then some foodB else none

/-- An agent with memory capacity 3 (the spec's worked FIFO example). -/
def ant3 : AntState :=
  { antEmptyAt (0, 0) with memorySize := 3 }

/-- Interior cell: not on any border. -/
def isInterior (W L : ℕ) (c : Cell) : Prop :=
  0 < c.1 ∧ c.1 < (W : ℤ) - 1 ∧ 0 < c.2 ∧ c.2 < (L : ℤ) - 1

/-- Corner cell: in bounds and extremal in both coordinates. -/
def isCorner (W L : ℕ) (c : Cell) : Prop :=
  inBounds W L c = true ∧ (c.1 = 0 ∨ c.1 = (W : ℤ) - 1) ∧ (c.2 = 0 ∨ c.2 = (L : ℤ) - 1)

/-- Edge cell that is not a corner: in bounds, on some border, but not
extremal in both coordinates. -/
def isEdgeNonCorner (W L : ℕ) (c : Cell) : Prop :=
  inBounds W L c = true ∧ ¬ isInterior W L c ∧ ¬ isCorner W L c

/-- The movement weight table of the driver (`{12, 5, 2, 1, 0.1, 1, 2, 5}`,
before normalization; only its length is observable through the abstract
distribution model). -/
def probInertia : List ℚ :=
  [12, 5, 2, 1, 1/10, 1, 2, 5]

/-- One same-reference adjacency step, as a proposition. -/
def stepRel (W L : ℕ) (occ : Cell → Option Object) (c d : Cell) : Prop :=
  sameRefAdj W L occ c d = true

/-- Reachability through same-reference adjacency steps (the connectivity
of the spec's component partition). -/
def reach (W L : ℕ) (occ : Cell → Option Object) : Cell → Cell → Prop :=
  Relation.ReflTransGen (stepRel W L occ)

/-! ### Theorems -/

theorem updateMemory_load (a : AntState) (s : Option Object) :
    (updateMemory a s).load = a.load := by
  cases s with
  | none => rfl
  | some o =>
    unfold updateMemory
    dsimp only
    split_ifs <;> rfl

theorem updateMemory_position (a : AntState) (s : Option Object) :
    (updateMemory a s).position = a.position := by
  cases s with
  | none => rfl
  | some o =>
    unfold updateMemory
    dsimp only
    split_ifs <;> rfl

theorem updateMemory_memorySize (a : AntState) (s : Option Object) :
    (updateMemory a s).memorySize = a.memorySize := by
  cases s with
  | none => rfl
  | some o =>
    unfold updateMemory
    dsimp only
    split_ifs <;> rfl

/-- C10: for every `x` and every pair `a < b`, `reluRange x a b` is total
and returns a value in `[0, 1]`: 0 when `x < a`, 1 when `x > b`, and
`(x - a) / (b - a)` otherwise.  The final conjunct shows that with a
degenerate range the middle branch is reached with a zero denominator
(`(c - c) / (c - c)`, the C++ `0.0 / 0.0`), so the strict precondition
`a < b` is indeed what keeps the unguarded division meaningful. -/
theorem reluRange_total_in_unit_interval (x a b : ℚ) (hab : a < b) :
    (0 ≤ reluRange x a b ∧ reluRange x a b ≤ 1) ∧
    (x < a → reluRange x a b = 0) ∧
    (b < x → reluRange x a b = 1) ∧
    (a ≤ x → x ≤ b → reluRange x a b = (x - a) / (b - a)) ∧
    (∀ c : ℚ, reluRange c c c = (c - c) / (c - c)) := by
  refine ⟨?_, ?_, ?_, ?_, ?_⟩
  · unfold reluRange
    split_ifs with h1 h2
    · norm_num
    · norm_num
    · push_neg at h1 h2
      constructor
      · apply div_nonneg <;> linarith
      · rw [div_le_one (by linarith)]
        linarith
  · intro h
    simp [reluRange, h]
  · intro h
    rw [reluRange, if_neg (by linarith), if_pos h]
  · intro h1 h2
    rw [reluRange, if_neg (by linarith), if_neg (by linarith)]
  · intro c
    rw [reluRange, if_neg (lt_irrefl c), if_neg (lt_irrefl c)]

/-- Witness for C10 at `x = 1/2`, `a = 3/10`, `b = 7/10`. -/
theorem reluRange_total_in_unit_interval_witness :
    (3/10 : ℚ) < 7/10 ∧
    ((0 ≤ reluRange (1/2) (3/10) (7/10) ∧ reluRange (1/2) (3/10) (7/10) ≤ 1) ∧
    ((1/2 : ℚ) < 3/10 → reluRange (1/2) (3/10) (7/10) = 0) ∧
    ((7/10 : ℚ) < 1/2 → reluRange (1/2) (3/10) (7/10) = 1) ∧
    ((3/10 : ℚ) ≤ 1/2 → (1/2 : ℚ) ≤ 7/10 →
      reluRange (1/2) (3/10) (7/10) = (1/2 - 3/10) / (7/10 - 3/10)) ∧
    (∀ c : ℚ, reluRange c c c = (c - c) / (c - c))) :=
  ⟨by norm_num, reluRange_total_in_unit_interval (1/2) (3/10) (7/10) (by norm_num)⟩

/-- C2 (amended): an unloaded agent on an occupied cell picks the object up
exactly when the uniform draw strictly exceeds `reluRange(d, a, b)`, where
`d` is the count of neighbors holding the *same object reference* as the
cell's occupant (not merely the same category) divided by the neighbor
count; on pick-up the cell becomes empty (other cells untouched) and the
carried slot is set to that object, otherwise nothing changes. -/
theorem assignWork_pick_iff (W L : ℕ) (occ : Cell → Option Object) (pr : ℚ × ℚ)
    (a : AntState) (draw : ℚ) (ob : Object)
    (hload : a.load = none) (hocc : occ a.position = some ob) :
    (reluRange ((countNeighbors W L occ a.position ob : ℚ) /
        ((getPossiblePositions W L a.position).length : ℚ)) pr.1 pr.2 < draw →
      (assignWorkStep W L occ pr a draw).1.load = some ob ∧
      (assignWorkStep W L occ pr a draw).2 a.position = none ∧
      ∀ q, q ≠ a.position → (assignWorkStep W L occ pr a draw).2 q = occ q) ∧
    (draw ≤ reluRange ((countNeighbors W L occ a.position ob : ℚ) /
        ((getPossiblePositions W L a.position).length : ℚ)) pr.1 pr.2 →
      (assignWorkStep W L occ pr a draw).1.load = none ∧
      (assignWorkStep W L occ pr a draw).2 = occ) := by
  unfold assignWorkStep
  simp only [hload, hocc]
  constructor
  · intro h
    rw [if_pos h]
    refine ⟨by rw [updateMemory_load], by simp, ?_⟩
    intro q hq
    simp [hq]
  · intro h
    rw [if_neg (not_lt.mpr h)]
    exact ⟨by rw [updateMemory_load, hload], rfl⟩

/-- Witness for C2's amended theorem: a 1×2 grid with one Food at (0,1)
and an unloaded agent standing there. -/
theorem assignWork_pick_iff_witness :
    (antEmptyAt (0, 1)).load = none ∧
    occOneFoodAtSide (antEmptyAt (0, 1)).position = some foodB ∧
    ((reluRange ((countNeighbors 1 2 occOneFoodAtSide (antEmptyAt (0, 1)).position foodB : ℚ) /
        ((getPossiblePositions 1 2 (antEmptyAt (0, 1)).position).length : ℚ)) (3/10) (7/10) <
          (1/2 : ℚ) →
      (assignWorkStep 1 2 occOneFoodAtSide (3/10, 7/10) (antEmptyAt (0, 1)) (1/2)).1.load =
          some foodB ∧
      (assignWorkStep 1 2 occOneFoodAtSide (3/10, 7/10) (antEmptyAt (0, 1)) (1/2)).2
          (antEmptyAt (0, 1)).position = none ∧
      ∀ q, q ≠ (antEmptyAt (0, 1)).position →
        (assignWorkStep 1 2 occOneFoodAtSide (3/10, 7/10) (antEmptyAt (0, 1)) (1/2)).2 q =
          occOneFoodAtSide q) ∧
    ((1/2 : ℚ) ≤ reluRange ((countNeighbors 1 2 occOneFoodAtSide (antEmptyAt (0, 1)).position foodB : ℚ) /
        ((getPossiblePositions 1 2 (antEmptyAt (0, 1)).position).length : ℚ)) (3/10) (7/10) →
      (assignWorkStep 1 2 occOneFoodAtSide (3/10, 7/10) (antEmptyAt (0, 1)) (1/2)).1.load = none ∧
      (assignWorkStep 1 2 occOneFoodAtSide (3/10, 7/10) (antEmptyAt (0, 1)) (1/2)).2 =
        occOneFoodAtSide)) :=
  ⟨rfl, rfl,
    assignWork_pick_iff 1 2 occOneFoodAtSide (3/10, 7/10) (antEmptyAt (0, 1)) (1/2) foodB rfl rfl⟩

/-- Counterexample to C2 as stated: on a 1×2 grid whose two cells hold two
*distinct* Food instances, the agent at (0,0) picks up (the code's
reference-identity density is 0, so the probability is 0 and the draw 1/2
exceeds it), although the claim's same-category density is 1, giving
probability 1, which the draw does not exceed. -/
theorem assignWork_pick_category_counterexample :
    (assignWorkStep 1 2 occTwoFoodRefs (3/10, 7/10) (antEmptyAt (0, 0)) (1/2)).1.load =
      some foodA ∧
    ¬ ((1/2 : ℚ) >
      reluRange ((countNeighborsSameCategory 1 2 occTwoFoodRefs ((0 : ℤ), (0 : ℤ))
          (objectTypeOf foodA) : ℚ) /
        ((getPossiblePositions 1 2 ((0 : ℤ), (0 : ℤ))).length : ℚ)) (3/10) (7/10)) := by
  have hcount : countNeighbors 1 2 occTwoFoodRefs ((0 : ℤ), (0 : ℤ)) foodA = 0 := by decide
  have hlen : (getPossiblePositions 1 2 ((0 : ℤ), (0 : ℤ))).length = 1 := by decide
  have hcat : countNeighborsSameCategory 1 2 occTwoFoodRefs ((0 : ℤ), (0 : ℤ))
      (objectTypeOf foodA) = 1 := by decide
  constructor
  · have hcond : reluRange ((countNeighbors 1 2 occTwoFoodRefs ((0 : ℤ), (0 : ℤ)) foodA : ℚ) /
        ((getPossiblePositions 1 2 ((0 : ℤ), (0 : ℤ))).length : ℚ)) (3/10) (7/10) <
        (1/2 : ℚ) := by
      rw [hcount, hlen]
      norm_num [reluRange]
    unfold assignWorkStep
    dsimp only [antEmptyAt]
    rw [show occTwoFoodRefs ((0 : ℤ), (0 : ℤ)) = some foodA from rfl]
    dsimp only
    rw [if_pos hcond]
    rw [updateMemory_load]
  · rw [hcat, hlen]
    norm_num [reluRange]

/-- C8 (amended): each pass of the `assignWork` loop body is a pure
exchange between the acting agent's carried slot and its cell's occupancy
entry — afterwards the pair (cell content, carried content) is either
unchanged or exactly swapped (pick empties the cell into the slot, drop
empties the slot into the cell, swap exchanges the two), and no other
cell's occupancy changes.  In particular nothing is duplicated or
destroyed *within the transaction*.  (The claim's further assertion that no
object is ever simultaneously on the ground and carried fails, because
placement shares one instance per category across many cells; see the
counterexample.) -/
theorem assignWork_conservation (W L : ℕ) (occ : Cell → Option Object) (pr : ℚ × ℚ)
    (a : AntState) (draw : ℚ) :
    (((assignWorkStep W L occ pr a draw).2 a.position = occ a.position ∧
      (assignWorkStep W L occ pr a draw).1.load = a.load) ∨
     ((assignWorkStep W L occ pr a draw).2 a.position = a.load ∧
      (assignWorkStep W L occ pr a draw).1.load = occ a.position)) ∧
    (∀ q, q = a.position ∨ (assignWorkStep W L occ pr a draw).2 q = occ q) := by
  unfold assignWorkStep
  dsimp only
  cases hl : a.load with
  | none =>
    cases ho : occ a.position with
    | none =>
      dsimp only
      exact ⟨Or.inl ⟨ho, by rw [updateMemory_load]; exact hl⟩, fun q => Or.inr rfl⟩
    | some ob =>
      dsimp only
      split_ifs with h
      · refine ⟨Or.inr ⟨by simp [hl], by rw [updateMemory_load]⟩, ?_⟩
        intro q
        rcases eq_or_ne q a.position with hq | hq
        · exact Or.inl hq
        · exact Or.inr (by simp [hq])
      · exact ⟨Or.inl ⟨ho, by rw [updateMemory_load]; exact hl⟩, fun q => Or.inr rfl⟩
  | some c0 =>
    dsimp only
    split_ifs with h
    · cases ho : occ a.position with
      | none =>
        dsimp only
        refine ⟨Or.inr ⟨by simp [hl], by rw [updateMemory_load]⟩, ?_⟩
        intro q
        rcases eq_or_ne q a.position with hq | hq
        · exact Or.inl hq
        · exact Or.inr (by simp [hq])
      | some g =>
        dsimp only
        refine ⟨Or.inr ⟨by simp [hl], by rw [updateMemory_load, updateMemory_load]⟩, ?_⟩
        intro q
        rcases eq_or_ne q a.position with hq | hq
        · exact Or.inl hq
        · exact Or.inr (by simp [hq])
    · exact ⟨Or.inl ⟨rfl, by rw [updateMemory_load, updateMemory_load]; exact hl⟩,
        fun q => Or.inr rfl⟩

/-- Counterexample to C8 as stated: `Ground::addObject` places one shared
Food instance on many cells (`occSharedFood` holds `foodA` at (0,0) and
(0,2) of a 1×3 grid, exactly as `getRandomObject` returns the same
`shared_ptr` repeatedly).  After the agent at (0,0) picks up, that same
object reference is simultaneously in the carried slot and on the ground
at (0,2) — refuting "no object is ever simultaneously present on the
ground and carried". -/
theorem assignWork_shared_reference_counterexample :
    (assignWorkStep 1 3 occSharedFood (3/10, 7/10) (antEmptyAt (0, 0)) (1/2)).1.load =
      some foodA ∧
    (assignWorkStep 1 3 occSharedFood (3/10, 7/10) (antEmptyAt (0, 0)) (1/2)).2
      ((0 : ℤ), (2 : ℤ)) = some foodA := by
  have hcount : countNeighbors 1 3 occSharedFood ((0 : ℤ), (0 : ℤ)) foodA = 0 := by decide
  have hlen : (getPossiblePositions 1 3 ((0 : ℤ), (0 : ℤ))).length = 1 := by decide
  have hcond : reluRange ((countNeighbors 1 3 occSharedFood ((0 : ℤ), (0 : ℤ)) foodA : ℚ) /
      ((getPossiblePositions 1 3 ((0 : ℤ), (0 : ℤ))).length : ℚ)) (3/10) (7/10) <
      (1/2 : ℚ) := by
    rw [hcount, hlen]
    norm_num [reluRange]
  constructor
  · unfold assignWorkStep
    dsimp only [antEmptyAt]
    rw [show occSharedFood ((0 : ℤ), (0 : ℤ)) = some foodA from rfl]
    dsimp only
    rw [if_pos hcond]
    rw [updateMemory_load]
  · unfold assignWorkStep
    dsimp only [antEmptyAt]
    rw [show occSharedFood ((0 : ℤ), (0 : ℤ)) = some foodA from rfl]
    dsimp only
    rw [if_pos hcond]
    decide

/-- C3 (amended): a loaded agent drops exactly when the uniform draw is at
most `reluRange` of the *same-reference* neighbor density of the carried
object (not the carried category's density): on an empty cell the object is
placed and the slot cleared, on an occupied cell the objects are swapped;
when the draw exceeds the probability neither the cell nor the slot
changes. -/
theorem assignWork_drop_iff (W L : ℕ) (occ : Cell → Option Object) (pr : ℚ × ℚ)
    (a : AntState) (draw : ℚ) (c0 : Object) (hload : a.load = some c0) :
    (draw ≤ reluRange ((countNeighbors W L occ a.position c0 : ℚ) /
        ((getPossiblePositions W L a.position).length : ℚ)) pr.1 pr.2 →
      (occ a.position = none →
        (assignWorkStep W L occ pr a draw).2 a.position = some c0 ∧
        (assignWorkStep W L occ pr a draw).1.load = none ∧
        ∀ q, q ≠ a.position → (assignWorkStep W L occ pr a draw).2 q = occ q) ∧
      (∀ g, occ a.position = some g →
        (assignWorkStep W L occ pr a draw).2 a.position = some c0 ∧
        (assignWorkStep W L occ pr a draw).1.load = some g ∧
        ∀ q, q ≠ a.position → (assignWorkStep W L occ pr a draw).2 q = occ q)) ∧
    (reluRange ((countNeighbors W L occ a.position c0 : ℚ) /
        ((getPossiblePositions W L a.position).length : ℚ)) pr.1 pr.2 < draw →
      (assignWorkStep W L occ pr a draw).1.load = a.load ∧
      (assignWorkStep W L occ pr a draw).2 = occ) := by
  unfold assignWorkStep
  simp only [hload]
  constructor
  · intro hd
    rw [if_pos hd]
    constructor
    · intro hocc
      rw [hocc]
      dsimp only
      refine ⟨by simp, by rw [updateMemory_load], ?_⟩
      intro q hq
      simp [hq]
    · intro g hocc
      rw [hocc]
      dsimp only
      refine ⟨by simp, by rw [updateMemory_load, updateMemory_load], ?_⟩
      intro q hq
      simp [hq]
  · intro hd
    rw [if_neg (not_le.mpr hd)]
    exact ⟨by rw [updateMemory_load, updateMemory_load, hload], rfl⟩

/-- Witness for C3's amended theorem: a 1×2 grid, the agent at (0,0)
carrying `foodA` over an empty cell. -/
theorem assignWork_drop_iff_witness :
    (antCarrying (0, 0) foodA).load = some foodA ∧
    (((1/2 : ℚ) ≤ reluRange ((countNeighbors 1 2 occOneFoodAtSide
          (antCarrying (0, 0) foodA).position foodA : ℚ) /
        ((getPossiblePositions 1 2 (antCarrying (0, 0) foodA).position).length : ℚ))
          (3/10) (7/10) →
      (occOneFoodAtSide (antCarrying (0, 0) foodA).position = none →
        (assignWorkStep 1 2 occOneFoodAtSide (3/10, 7/10) (antCarrying (0, 0) foodA) (1/2)).2
            (antCarrying (0, 0) foodA).position = some foodA ∧
        (assignWorkStep 1 2 occOneFoodAtSide (3/10, 7/10) (antCarrying (0, 0) foodA) (1/2)).1.load =
            none ∧
        ∀ q, q ≠ (antCarrying (0, 0) foodA).position →
          (assignWorkStep 1 2 occOneFoodAtSide (3/10, 7/10) (antCarrying (0, 0) foodA) (1/2)).2 q =
            occOneFoodAtSide q) ∧
      (∀ g, occOneFoodAtSide (antCarrying (0, 0) foodA).position = some g →
        (assignWorkStep 1 2 occOneFoodAtSide (3/10, 7/10) (antCarrying (0, 0) foodA) (1/2)).2
            (antCarrying (0, 0) foodA).position = some foodA ∧
        (assignWorkStep 1 2 occOneFoodAtSide (3/10, 7/10) (antCarrying (0, 0) foodA) (1/2)).1.load =
            some g ∧
        ∀ q, q ≠ (antCarrying (0, 0) foodA).position →
          (assignWorkStep 1 2 occOneFoodAtSide (3/10, 7/10) (antCarrying (0, 0) foodA) (1/2)).2 q =
            occOneFoodAtSide q)) ∧
    (reluRange ((countNeighbors 1 2 occOneFoodAtSide (antCarrying (0, 0) foodA).position foodA : ℚ) /
        ((getPossiblePositions 1 2 (antCarrying (0, 0) foodA).position).length : ℚ))
          (3/10) (7/10) < (1/2 : ℚ) →
      (assignWorkStep 1 2 occOneFoodAtSide (3/10, 7/10) (antCarrying (0, 0) foodA) (1/2)).1.load =
        (antCarrying (0, 0) foodA).load ∧
      (assignWorkStep 1 2 occOneFoodAtSide (3/10, 7/10) (antCarrying (0, 0) foodA) (1/2)).2 =
        occOneFoodAtSide)) :=
  ⟨rfl, assignWork_drop_iff 1 2 occOneFoodAtSide (3/10, 7/10) (antCarrying (0, 0) foodA)
    (1/2) foodA rfl⟩

/-- Counterexample to C3 as stated: agent at (0,0) of a 1×2 grid carries
Food instance `foodA`; the neighbor holds the distinct Food instance
`foodB`.  The claim's drop condition (draw ≤ probability from the carried
*category*'s density, here 1) holds, yet the code (whose density counts
same-*reference* occupants, here 0) does not drop: the cell stays empty
and the slot keeps the object. -/
theorem assignWork_drop_category_counterexample :
    (assignWorkStep 1 2 occOneFoodAtSide (3/10, 7/10) (antCarrying (0, 0) foodA) (1/2)).2
        ((0 : ℤ), (0 : ℤ)) = none ∧
    (assignWorkStep 1 2 occOneFoodAtSide (3/10, 7/10) (antCarrying (0, 0) foodA) (1/2)).1.load =
        some foodA ∧
    ((1/2 : ℚ) ≤ reluRange ((countNeighborsSameCategory 1 2 occOneFoodAtSide ((0 : ℤ), (0 : ℤ))
          (objectTypeOf foodA) : ℚ) /
        ((getPossiblePositions 1 2 ((0 : ℤ), (0 : ℤ))).length : ℚ)) (3/10) (7/10)) := by
  have hcount : countNeighbors 1 2 occOneFoodAtSide ((0 : ℤ), (0 : ℤ)) foodA = 0 := by decide
  have hlen : (getPossiblePositions 1 2 ((0 : ℤ), (0 : ℤ))).length = 1 := by decide
  have hcat : countNeighborsSameCategory 1 2 occOneFoodAtSide ((0 : ℤ), (0 : ℤ))
      (objectTypeOf foodA) = 1 := by decide
  have hncond : ¬ ((1/2 : ℚ) ≤ reluRange ((countNeighbors 1 2 occOneFoodAtSide
      ((0 : ℤ), (0 : ℤ)) foodA : ℚ) /
        ((getPossiblePositions 1 2 ((0 : ℤ), (0 : ℤ))).length : ℚ)) (3/10) (7/10)) := by
    rw [hcount, hlen]
    norm_num [reluRange]
  refine ⟨?_, ?_, ?_⟩
  · unfold assignWorkStep
    dsimp only [antCarrying, antEmptyAt]
    rw [if_neg hncond]
    decide
  · unfold assignWorkStep
    dsimp only [antCarrying, antEmptyAt]
    rw [if_neg hncond]
    rw [updateMemory_load, updateMemory_load]
  · rw [hcat, hlen]
    norm_num [reluRange]

theorem objectTypeOf_of_valid {c : ℕ} (hc : c = 1 ∨ c = 2 ∨ c = 3) :
    objectTypeOf ⟨0, c⟩ = c := by
  rcases hc with h | h | h <;> subst h <;> rfl

theorem updateMemory_valid_memory (a : AntState) (c : ℕ)
    (hc : c = 1 ∨ c = 2 ∨ c = 3) (hM : 1 ≤ a.memorySize)
    (hlen : a.memory.length ≤ a.memorySize) :
    (updateMemory a (some ⟨0, c⟩)).memory =
      (a.memory ++ [c]).drop (a.memory.length + 1 - a.memorySize) := by
  unfold updateMemory
  dsimp only
  rw [objectTypeOf_of_valid hc]
  rw [if_pos (by rcases hc with h | h | h <;> subst h <;> decide)]
  split_ifs with hcap
  · have hEq : a.memory.length = a.memorySize := le_antisymm hlen hcap
    have h1 : a.memory.length + 1 - a.memorySize = 1 := by omega
    rw [h1]
    have hne : 1 ≤ a.memory.length := by omega
    rw [List.drop_append_of_le_length hne]
  · have h0 : a.memory.length + 1 - a.memorySize = 0 := by omega
    rw [h0, List.drop_zero]

theorem applyMemoryUpdates_memory (l : List ℕ) :
    ∀ a : AntState, 1 ≤ a.memorySize → a.memory.length ≤ a.memorySize →
    (∀ c ∈ l, c = 1 ∨ c = 2 ∨ c = 3) →
    (applyMemoryUpdates a l).memory =
      (a.memory ++ l).drop (a.memory.length + l.length - a.memorySize) := by
  induction l with
  | nil =>
    intro a hM hlen _
    have h0 : a.memory.length - a.memorySize = 0 := by omega
    simp [applyMemoryUpdates, h0]
  | cons c l' ih =>
    intro a hM hlen hl
    have hc : c = 1 ∨ c = 2 ∨ c = 3 := hl c (by simp)
    have hstep : applyMemoryUpdates a (c :: l') =
        applyMemoryUpdates (updateMemory a (some ⟨0, c⟩)) l' := by
      simp [applyMemoryUpdates]
    rw [hstep]
    have hsize : (updateMemory a (some ⟨0, c⟩)).memorySize = a.memorySize :=
      updateMemory_memorySize a _
    have hmem : (updateMemory a (some ⟨0, c⟩)).memory =
        (a.memory ++ [c]).drop (a.memory.length + 1 - a.memorySize) :=
      updateMemory_valid_memory a c hc hM hlen
    have hlen' : (updateMemory a (some ⟨0, c⟩)).memory.length ≤
        (updateMemory a (some ⟨0, c⟩)).memorySize := by
      rw [hsize, hmem]
      simp only [List.length_drop, List.length_append, List.length_singleton]
      omega
    have := ih (updateMemory a (some ⟨0, c⟩)) (by rw [hsize]; exact hM) hlen'
      (fun d hd => hl d (by simp [hd]))
    rw [this, hsize, hmem]
    simp only [List.length_drop, List.length_append, List.length_singleton]
    have hsplit : List.drop (a.memory.length + 1 - a.memorySize) (a.memory ++ [c]) ++ l' =
        List.drop (a.memory.length + 1 - a.memorySize) ((a.memory ++ [c]) ++ l') :=
      (List.drop_append_of_le_length (by simp only [List.length_append, List.length_singleton]; omega)).symm
    rw [hsplit, List.drop_drop]
    have hassoc : (a.memory ++ [c]) ++ l' = a.memory ++ (c :: l') := by
      simp
    rw [hassoc]
    congr 1
    simp only [List.length_cons]
    omega

/-- C6: for capacity `M ≥ 1`, `updateMemory` with "no object" is a no-op;
otherwise the category code is appended at the back of the FIFO, evicting
the oldest entry when at capacity, so the length never exceeds `M`; after
`M + 1` updates with non-empty categories the memory is exactly the input
sequence with its first (oldest) entry gone, order preserved — in
particular capacity 3 with Food, Waste, Egg, Food (codes 1, 2, 3, 1)
yields `[2, 3, 1]`. -/
theorem updateMemory_fifo (a : AntState) (l : List ℕ)
    (hM : 1 ≤ a.memorySize) (hmem : a.memory.length ≤ a.memorySize)
    (hl : ∀ c ∈ l, c = 1 ∨ c = 2 ∨ c = 3) (hlen : l.length = a.memorySize + 1) :
    updateMemory a none = a ∧
    (∀ s : Option Object, (updateMemory a s).memory.length ≤ a.memorySize) ∧
    (applyMemoryUpdates a l).memory = l.drop 1 ∧
    (applyMemoryUpdates ant3 [1, 2, 3, 1]).memory = [2, 3, 1] := by
  refine ⟨rfl, ?_, ?_, by decide⟩
  · intro s
    cases s with
    | none => exact hmem
    | some o =>
      unfold updateMemory
      dsimp only
      split_ifs with h1 h2
      · simp only [List.length_append, List.length_drop, List.length_singleton]
        omega
      · simp only [List.length_append, List.length_singleton]
        omega
      · exact hmem
  · rw [applyMemoryUpdates_memory l a hM hmem hl]
    rw [hlen]
    have hcut : a.memory.length + (a.memorySize + 1) - a.memorySize =
        a.memory.length + 1 := by omega
    rw [hcut]
    rw [show a.memory.length + 1 = a.memory.length + 1 from rfl]
    rw [List.drop_append_eq_append_drop]
    have h1 : a.memory.drop (a.memory.length + 1) = [] := by
      apply List.drop_eq_nil_of_le
      omega
    rw [h1]
    simp only [List.nil_append]
    congr 1
    omega

/-- Witness for C6: capacity 3, empty initial memory, inserting the codes
for Food, Waste, Egg, Food. -/
theorem updateMemory_fifo_witness :
    1 ≤ ant3.memorySize ∧
    ant3.memory.length ≤ ant3.memorySize ∧
    (∀ c ∈ [1, 2, 3, 1], c = 1 ∨ c = 2 ∨ c = 3) ∧
    ([1, 2, 3, 1] : List ℕ).length = ant3.memorySize + 1 ∧
    (updateMemory ant3 none = ant3 ∧
    (∀ s : Option Object, (updateMemory ant3 s).memory.length ≤ ant3.memorySize) ∧
    (applyMemoryUpdates ant3 [1, 2, 3, 1]).memory = ([1, 2, 3, 1] : List ℕ).drop 1 ∧
    (applyMemoryUpdates ant3 [1, 2, 3, 1]).memory = [2, 3, 1]) :=
  ⟨by decide, by decide, by decide, by decide,
    updateMemory_fifo ant3 [1, 2, 3, 1] (by decide) (by decide) (by decide) (by decide)⟩

set_option maxHeartbeats 3200000 in
/-- C7 (amended): for every grid the neighbor list of a cell contains only
in-bounds cells and is the in-order sublist of the eight offset
translations (angular order N, NE, E, SE, S, SW, W, NW with out-of-bounds
offsets skipped); interior cells always have exactly 8 neighbors, and on
grids with both dimensions at least 2, non-corner edge cells have 5 and
corner cells have 3.  (For degenerate 1-wide grids the 5/3 counts fail;
see the counterexample.) -/
theorem getPossiblePositions_structure (W L : ℕ) (c : Cell) :
    (∀ d ∈ getPossiblePositions W L c, inBounds W L d = true) ∧
    ((getPossiblePositions W L c).Sublist
      (neighborOffsets.map (fun o => (c.1 + o.1, c.2 + o.2)))) ∧
    (isInterior W L c → (getPossiblePositions W L c).length = 8) ∧
    (2 ≤ W → 2 ≤ L →
      (isEdgeNonCorner W L c → (getPossiblePositions W L c).length = 5) ∧
      (isCorner W L c → (getPossiblePositions W L c).length = 3)) := by
  refine ⟨?_, ?_, ?_, ?_⟩
  · intro d hd
    exact (List.mem_filter.mp hd).2
  · exact List.filter_sublist _
  · intro h
    obtain ⟨h1, h2, h3, h4⟩ := h
    simp only [getPossiblePositions, neighborOffsets, List.map, ← List.countP_eq_length_filter,
      List.countP_cons, List.countP_nil, inBounds, decide_eq_true_eq]
    split_ifs <;> omega
  · intro hW hL
    have hW' : (2 : ℤ) ≤ (W : ℤ) := by exact_mod_cast hW
    have hL' : (2 : ℤ) ≤ (L : ℤ) := by exact_mod_cast hL
    constructor
    · intro h
      obtain ⟨hin, hni, hnc⟩ := h
      rw [inBounds, decide_eq_true_eq] at hin
      rw [isInterior] at hni
      rw [isCorner, inBounds, decide_eq_true_eq] at hnc
      simp only [getPossiblePositions, neighborOffsets, List.map, ← List.countP_eq_length_filter,
        List.countP_cons, List.countP_nil, inBounds, decide_eq_true_eq]
      split_ifs <;> omega
    · intro h
      obtain ⟨hin, hx, hy⟩ := h
      rw [inBounds, decide_eq_true_eq] at hin
      simp only [getPossiblePositions, neighborOffsets, List.map, ← List.countP_eq_length_filter,
        List.countP_cons, List.countP_nil, inBounds, decide_eq_true_eq]
      split_ifs <;> omega

/-- Witness for C7's amended theorem at the interior cell (1,1) and, via
the same application, the guarded counts on a 3×3 grid. -/
theorem getPossiblePositions_structure_witness :
    (∀ d ∈ getPossiblePositions 3 3 ((1 : ℤ), (1 : ℤ)), inBounds 3 3 d = true) ∧
    ((getPossiblePositions 3 3 ((1 : ℤ), (1 : ℤ))).Sublist
      (neighborOffsets.map (fun o => ((1 : ℤ) + o.1, (1 : ℤ) + o.2)))) ∧
    (isInterior 3 3 ((1 : ℤ), (1 : ℤ)) →
      (getPossiblePositions 3 3 ((1 : ℤ), (1 : ℤ))).length = 8) ∧
    (2 ≤ 3 → 2 ≤ 3 →
      (isEdgeNonCorner 3 3 ((1 : ℤ), (1 : ℤ)) →
        (getPossiblePositions 3 3 ((1 : ℤ), (1 : ℤ))).length = 5) ∧
      (isCorner 3 3 ((1 : ℤ), (1 : ℤ)) →
        (getPossiblePositions 3 3 ((1 : ℤ), (1 : ℤ))).length = 3)) :=
  getPossiblePositions_structure 3 3 ((1 : ℤ), (1 : ℤ))

/-- Counterexample to C7 as stated: on the legal 1×1 grid (width and
length both positive) the single cell (0,0) is a corner yet has 0 legal
neighbors, not 3. -/
theorem getPossiblePositions_corner_counterexample :
    isCorner 1 1 ((0 : ℤ), (0 : ℤ)) ∧
    (getPossiblePositions 1 1 ((0 : ℤ), (0 : ℤ))).length = 0 :=
  ⟨⟨by decide, Or.inl rfl, Or.inl rfl⟩, by decide⟩

theorem simAt_congr (ags agents0 : List AntState)
    (hmem : ∀ k : ℕ, (ags[k]?).map AntState.memory = (agents0[k]?).map AntState.memory)
    (lt : ℕ) (j : ℕ) : simAt ags lt j = simAt agents0 lt j := by
  unfold simAt
  have h := hmem j
  cases h1 : ags[j]? with
  | none =>
    rw [h1] at h
    cases h2 : agents0[j]? with
    | none => rfl
    | some b => rw [h2] at h; simp at h
  | some b =>
    rw [h1] at h
    cases h2 : agents0[j]? with
    | none => rw [h2] at h; simp at h
    | some b' =>
      rw [h2] at h
      have hbm : b.memory = b'.memory := by simpa using h
      dsimp only
      rw [hbm]

theorem mem_agentsAt (agents : List AntState) (c : Cell) (j : ℕ) :
    j ∈ agentsAt agents c ↔ ∃ b, agents[j]? = some b ∧ b.position = c := by
  unfold agentsAt
  rw [List.mem_filter, List.mem_range]
  cases h : agents[j]? with
  | none =>
    simp only [h]
    constructor
    · rintro ⟨hj, hfalse⟩
      simp at hfalse
    · rintro ⟨b, hb, -⟩
      simp at hb
  | some b =>
    have hj : j < agents.length := by
      by_contra hge
      rw [List.getElem?_eq_none (by omega)] at h
      simp at h
    simp only [h, decide_eq_true_eq]
    constructor
    · rintro ⟨-, hb⟩
      exact ⟨b, rfl, hb⟩
    · rintro ⟨b', hb', hpos⟩
      obtain rfl : b = b' := by simpa using hb'
      exact ⟨hj, hpos⟩

theorem firesB_true_iff (W L : ℕ) (θ : ℤ) (agents0 : List AntState) (i : ℕ)
    (a0 : AntState) (h : agents0[i]? = some a0) :
    firesB W L θ agents0 i = true ↔
      (a0.interactionCooldown = 0 ∧ a0.load ≠ none ∧
       ∃ j : ℕ, ∃ b : AntState, agents0[j]? = some b ∧
         b.position ∈ getPossiblePositions W L a0.position ∧
         θ ≤ (b.memory.count (loadTypeOf a0.load) : ℤ)) := by
  unfold firesB
  rw [h]
  simp only [Bool.and_eq_true, decide_eq_true_eq, Option.isSome_iff_ne_none,
    List.any_eq_true, List.mem_range]
  constructor
  · rintro ⟨⟨hc, hl⟩, j, hj, hb⟩
    refine ⟨hc, hl, j, ?_⟩
    cases hg : agents0[j]? with
    | none => rw [hg] at hb; simp at hb
    | some b =>
      rw [hg] at hb
      simp only [Bool.and_eq_true, decide_eq_true_eq] at hb
      exact ⟨b, rfl, hb.1, hb.2⟩
  · rintro ⟨hc, hl, j, b, hg, hpos, hsim⟩
    have hj : j < agents0.length := by
      by_contra hge
      rw [List.getElem?_eq_none (by omega)] at hg
      simp at hg
    refine ⟨⟨hc, hl⟩, j, hj, ?_⟩
    rw [hg]
    simp only [Bool.and_eq_true, decide_eq_true_eq]
    exact ⟨hpos, hsim⟩

theorem phaseAGo_spec (W L : ℕ) (θ dur : ℤ) (agents0 : List AntState) :
    ∀ (ixs : List ℕ) (ags : List AntState) (cnt : ℕ),
    (∀ k : ℕ, (ags[k]?).map AntState.position = (agents0[k]?).map AntState.position) →
    (∀ k : ℕ, (ags[k]?).map AntState.memory = (agents0[k]?).map AntState.memory) →
    (∀ k : ℕ, (ags[k]?).map AntState.load = (agents0[k]?).map AntState.load) →
    (∀ k ∈ ixs, (ags[k]?).map AntState.interactionCooldown =
      (agents0[k]?).map AntState.interactionCooldown) →
    ixs.Nodup →
    ((phaseAGo W L θ dur agents0 ixs ags cnt).1.length = ags.length ∧
     (∀ k : ℕ, ((phaseAGo W L θ dur agents0 ixs ags cnt).1[k]?).map AntState.position =
        (ags[k]?).map AntState.position) ∧
     (∀ k : ℕ, ((phaseAGo W L θ dur agents0 ixs ags cnt).1[k]?).map AntState.memory =
        (ags[k]?).map AntState.memory) ∧
     (∀ k : ℕ, ((phaseAGo W L θ dur agents0 ixs ags cnt).1[k]?).map AntState.load =
        (ags[k]?).map AntState.load) ∧
     (∀ k : ℕ, k ∉ ixs → (phaseAGo W L θ dur agents0 ixs ags cnt).1[k]? = ags[k]?) ∧
     (∀ k ∈ ixs,
        ((phaseAGo W L θ dur agents0 ixs ags cnt).1[k]?).map AntState.interactionCooldown =
        (if firesB W L θ agents0 k then some dur
         else (ags[k]?).map AntState.interactionCooldown)) ∧
     (phaseAGo W L θ dur agents0 ixs ags cnt).2 =
        cnt + ixs.countP (firesB W L θ agents0)) := by
  intro ixs
  induction ixs with
  | nil =>
    intro ags cnt hpos hmem hload hcool hnd
    simp [phaseAGo]
  | cons i rest ih =>
    intro ags cnt hpos hmem hload hcool hnd
    have hir : i ∉ rest := (List.nodup_cons.mp hnd).1
    have hndr : rest.Nodup := (List.nodup_cons.mp hnd).2
    cases hai : ags[i]? with
    | none =>
      have h0 : agents0[i]? = none := by
        have hpi := hpos i
        rw [hai] at hpi
        cases h2 : agents0[i]? with
        | none => rfl
        | some b => rw [h2] at hpi; simp at hpi
      have hfF : firesB W L θ agents0 i = false := by
        unfold firesB
        rw [h0]
      have hgo : phaseAGo W L θ dur agents0 (i :: rest) ags cnt =
          phaseAGo W L θ dur agents0 rest ags cnt := by
        rw [phaseAGo, hai]
      rw [hgo]
      obtain ⟨ihlen, ihpos, ihmem, ihload, ihun, ihcool, ihcnt⟩ :=
        ih ags cnt hpos hmem hload (fun k hk => hcool k (List.mem_cons_of_mem i hk)) hndr
      refine ⟨ihlen, ihpos, ihmem, ihload, ?_, ?_, ?_⟩
      · intro k hk
        exact ihun k (fun hkr => hk (List.mem_cons_of_mem i hkr))
      · intro k hk
        rcases List.mem_cons.mp hk with rfl | hkr
        · rw [hfF, ihun k hir, hai]
          simp
        · exact ihcool k hkr
      · rw [ihcnt, List.countP_cons, hfF]
        simp
    | some a =>
      have hpi := hpos i
      rw [hai] at hpi
      cases h0 : agents0[i]? with
      | none => rw [h0] at hpi; simp at hpi
      | some a0 =>
        rw [h0] at hpi
        have hpa : a.position = a0.position := by simpa using hpi
        have hma : a.memory = a0.memory := by
          have h := hmem i
          rw [hai, h0] at h
          simpa using h
        have hla : a.load = a0.load := by
          have h := hload i
          rw [hai, h0] at h
          simpa using h
        have hca : a.interactionCooldown = a0.interactionCooldown := by
          have h := hcool i (List.mem_cons_self i rest)
          rw [hai, h0] at h
          simpa using h
        by_cases hskip : a.interactionCooldown ≠ 0 ∨ a.load = none
        · have hfF : firesB W L θ agents0 i = false := by
            rw [Bool.eq_false_iff]
            rw [Ne, firesB_true_iff W L θ agents0 i a0 h0]
            rintro ⟨hc, hl, -⟩
            rcases hskip with hx | hx
            · exact hx (by rw [hca, hc])
            · exact hl (by rw [← hla, hx])
          have hgo : phaseAGo W L θ dur agents0 (i :: rest) ags cnt =
              phaseAGo W L θ dur agents0 rest ags cnt := by
            rw [phaseAGo, hai]
            dsimp only
            rw [if_pos hskip]
          rw [hgo]
          obtain ⟨ihlen, ihpos, ihmem, ihload, ihun, ihcool, ihcnt⟩ :=
            ih ags cnt hpos hmem hload (fun k hk => hcool k (List.mem_cons_of_mem i hk)) hndr
          refine ⟨ihlen, ihpos, ihmem, ihload, ?_, ?_, ?_⟩
          · intro k hk
            exact ihun k (fun hkr => hk (List.mem_cons_of_mem i hkr))
          · intro k hk
            rcases List.mem_cons.mp hk with rfl | hkr
            · rw [hfF, ihun k hir, hai]
              simp
            · exact ihcool k hkr
          · rw [ihcnt, List.countP_cons, hfF]
            simp
        · push_neg at hskip
          obtain ⟨hc0, hlne⟩ := hskip
          cases hfind : ((getPossiblePositions W L a.position).flatMap (agentsAt agents0)).find?
              (fun j => decide (θ ≤ (simAt ags (loadTypeOf a.load) j : ℤ))) with
          | none =>
            have hfF : firesB W L θ agents0 i = false := by
              rw [Bool.eq_false_iff]
              rw [Ne, firesB_true_iff W L θ agents0 i a0 h0]
              rintro ⟨-, -, j, b, hg, hposb, hsim⟩
              have hjc : j ∈ (getPossiblePositions W L a.position).flatMap (agentsAt agents0) := by
                rw [List.mem_flatMap]
                refine ⟨b.position, by rw [hpa]; exact hposb, ?_⟩
                rw [mem_agentsAt]
                exact ⟨b, hg, rfl⟩
              have := List.find?_eq_none.mp hfind j hjc
              apply this
              rw [decide_eq_true_eq]
              rw [simAt_congr ags agents0 hmem]
              unfold simAt
              rw [hg, hla]
              exact hsim
            have hgo : phaseAGo W L θ dur agents0 (i :: rest) ags cnt =
                phaseAGo W L θ dur agents0 rest ags cnt := by
              rw [phaseAGo, hai]
              dsimp only
              rw [if_neg (by push_neg; exact ⟨hc0, hlne⟩), hfind]
            rw [hgo]
            obtain ⟨ihlen, ihpos, ihmem, ihload, ihun, ihcool, ihcnt⟩ :=
              ih ags cnt hpos hmem hload (fun k hk => hcool k (List.mem_cons_of_mem i hk)) hndr
            refine ⟨ihlen, ihpos, ihmem, ihload, ?_, ?_, ?_⟩
            · intro k hk
              exact ihun k (fun hkr => hk (List.mem_cons_of_mem i hkr))
            · intro k hk
              rcases List.mem_cons.mp hk with rfl | hkr
              · rw [hfF, ihun k hir, hai]
                simp
              · exact ihcool k hkr
            · rw [ihcnt, List.countP_cons, hfF]
              simp
          | some j =>
            have hlt : i < ags.length := by
              by_contra hge
              rw [List.getElem?_eq_none (by omega)] at hai
              simp at hai
            have hfT : firesB W L θ agents0 i = true := by
              rw [firesB_true_iff W L θ agents0 i a0 h0]
              refine ⟨by rw [← hca]; exact hc0, by rw [← hla]; exact hlne, ?_⟩
              have hjc := List.mem_of_find?_eq_some hfind
              have hpj := List.find?_some hfind
              rw [List.mem_flatMap] at hjc
              obtain ⟨cell, hcell, hjcell⟩ := hjc
              rw [mem_agentsAt] at hjcell
              obtain ⟨b, hg, hbp⟩ := hjcell
              refine ⟨j, b, hg, by rw [← hpa, hbp]; exact hcell, ?_⟩
              rw [decide_eq_true_eq] at hpj
              rw [simAt_congr ags agents0 hmem] at hpj
              unfold simAt at hpj
              rw [hg, hla] at hpj
              exact hpj
            have hgo : phaseAGo W L θ dur agents0 (i :: rest) ags cnt =
                phaseAGo W L θ dur agents0 rest
                  (ags.set i { a with
                    prevDirection := (prevDirAt ags j + 4) % 8,
                    interactionCooldown := dur })
                  (cnt + 1) := by
              rw [phaseAGo, hai]
              dsimp only
              rw [if_neg (by push_neg; exact ⟨hc0, hlne⟩), hfind]
            rw [hgo]
            set upd : AntState := { a with
              prevDirection := (prevDirAt ags j + 4) % 8,
              interactionCooldown := dur } with hupd
            have hset_i : (ags.set i upd)[i]? = some upd := List.getElem?_set_self hlt
            have hset_ne : ∀ k : ℕ, k ≠ i → (ags.set i upd)[k]? = ags[k]? := by
              intro k hk
              exact List.getElem?_set_ne (Ne.symm hk)
            have hpos' : ∀ k : ℕ, ((ags.set i upd)[k]?).map AntState.position =
                (agents0[k]?).map AntState.position := by
              intro k
              rcases eq_or_ne k i with rfl | hk
              · rw [hset_i, h0]
                simpa using hpa
              · rw [hset_ne k hk]
                exact hpos k
            have hmem' : ∀ k : ℕ, ((ags.set i upd)[k]?).map AntState.memory =
                (agents0[k]?).map AntState.memory := by
              intro k
              rcases eq_or_ne k i with rfl | hk
              · rw [hset_i, h0]
                simpa using hma
              · rw [hset_ne k hk]
                exact hmem k
            have hload' : ∀ k : ℕ, ((ags.set i upd)[k]?).map AntState.load =
                (agents0[k]?).map AntState.load := by
              intro k
              rcases eq_or_ne k i with rfl | hk
              · rw [hset_i, h0]
                simpa using hla
              · rw [hset_ne k hk]
                exact hload k
            have hcool' : ∀ k ∈ rest, ((ags.set i upd)[k]?).map AntState.interactionCooldown =
                (agents0[k]?).map AntState.interactionCooldown := by
              intro k hk
              have hkne : k ≠ i := fun hki => hir (hki ▸ hk)
              rw [hset_ne k hkne]
              exact hcool k (List.mem_cons_of_mem i hk)
            obtain ⟨ihlen, ihpos, ihmem, ihload, ihun, ihcool, ihcnt⟩ :=
              ih (ags.set i upd) (cnt + 1) hpos' hmem' hload' hcool' hndr
            refine ⟨?_, ?_, ?_, ?_, ?_, ?_, ?_⟩
            · rw [ihlen, List.length_set]
            · intro k
              rw [ihpos k]
              rcases eq_or_ne k i with rfl | hk
              · rw [hset_i, hai]
                rfl
              · rw [hset_ne k hk]
            · intro k
              rw [ihmem k]
              rcases eq_or_ne k i with rfl | hk
              · rw [hset_i, hai]
                rfl
              · rw [hset_ne k hk]
            · intro k
              rw [ihload k]
              rcases eq_or_ne k i with rfl | hk
              · rw [hset_i, hai]
                rfl
              · rw [hset_ne k hk]
            · intro k hk
              have hkne : k ≠ i := fun hki => hk (hki ▸ List.mem_cons_self i rest)
              rw [ihun k (fun hkr => hk (List.mem_cons_of_mem i hkr)), hset_ne k hkne]
            · intro k hk
              rcases List.mem_cons.mp hk with rfl | hkr
              · rw [ihun k hir, hset_i, hfT]
                simp
              · rw [ihcool k hkr]
                have hkne : k ≠ i := fun hki => hir (hki ▸ hkr)
                rw [hset_ne k hkne]
            · rw [ihcnt, List.countP_cons, hfT]
              simp
              omega

/-- C4: in `handleAntInteractions`, an agent with zero cooldown and a
non-empty carried slot fires an interaction if and only if some agent in
one of its neighbor cells has at least `similarityThreshold` occurrences of
the carried category in memory; the interaction counter increases by
exactly the number of firing agents (at most one interaction per agent per
step).  Similarity exactly at the threshold fires, threshold−1 does not,
and threshold 0 fires on any such encounter, all being instances of the
`≤`-comparison. -/
theorem handleAntInteractions_fires_iff (W L : ℕ) (θ dur : ℤ) (agents : List AntState)
    (cnt : ℕ) :
    (handleAntInteractions W L θ dur agents cnt).2 =
      cnt + (List.range agents.length).countP (firesB W L θ agents) ∧
    (∀ i : ℕ, ∀ a : AntState, agents[i]? = some a →
      (firesB W L θ agents i = true ↔
        (a.interactionCooldown = 0 ∧ a.load ≠ none ∧
         ∃ j : ℕ, ∃ b : AntState, agents[j]? = some b ∧
           b.position ∈ getPossiblePositions W L a.position ∧
           θ ≤ (b.memory.count (loadTypeOf a.load) : ℤ)))) := by
  constructor
  · have h := phaseAGo_spec W L θ dur agents (List.range agents.length) agents cnt
      (fun k => rfl) (fun k => rfl) (fun k => rfl) (fun k _ => rfl) (List.nodup_range _)
    unfold handleAntInteractions
    exact h.2.2.2.2.2.2
  · intro i a ha
    exact firesB_true_iff W L θ agents i a ha

/-- Witness for C4: two agents on a 1×2 grid, threshold 0, the loaded
agent at (0,0) and an empty-memory agent at (0,1). -/
theorem handleAntInteractions_fires_iff_witness :
    (handleAntInteractions 1 2 0 20 [antCarrying (0, 0) foodA, antEmptyAt (0, 1)] 0).2 =
      0 + (List.range ([antCarrying (0, 0) foodA, antEmptyAt (0, 1)] : List AntState).length).countP
        (firesB 1 2 0 [antCarrying (0, 0) foodA, antEmptyAt (0, 1)]) ∧
    (∀ i : ℕ, ∀ a : AntState,
      ([antCarrying (0, 0) foodA, antEmptyAt (0, 1)] : List AntState)[i]? = some a →
      (firesB 1 2 0 [antCarrying (0, 0) foodA, antEmptyAt (0, 1)] i = true ↔
        (a.interactionCooldown = 0 ∧ a.load ≠ none ∧
         ∃ j : ℕ, ∃ b : AntState,
           ([antCarrying (0, 0) foodA, antEmptyAt (0, 1)] : List AntState)[j]? = some b ∧
           b.position ∈ getPossiblePositions 1 2 a.position ∧
           (0 : ℤ) ≤ (b.memory.count (loadTypeOf a.load) : ℤ)))) :=
  handleAntInteractions_fires_iff 1 2 0 20 [antCarrying (0, 0) foodA, antEmptyAt (0, 1)] 0

/-- C5 (amended): an agent that fires leaves the step with cooldown
`duration − 1` when the duration is positive (Phase B of the same call
decrements the just-assigned value), not `duration`; a non-firing agent's
positive cooldown decreases by exactly 1, a zero cooldown stays 0 (an
agent with positive cooldown can never fire), and the cooldown never
becomes negative given non-negative inputs. -/
theorem handleAntInteractions_cooldown (W L : ℕ) (θ dur : ℤ) (agents : List AntState)
    (cnt : ℕ) (i : ℕ) (a : AntState) (ha : agents[i]? = some a)
    (hdur : 0 ≤ dur) (hc : 0 ≤ a.interactionCooldown) :
    (0 < a.interactionCooldown → firesB W L θ agents i = false) ∧
    ∃ a' : AntState, (handleAntInteractions W L θ dur agents cnt).1[i]? = some a' ∧
      a'.interactionCooldown =
        (if 0 < (if firesB W L θ agents i then dur else a.interactionCooldown)
         then (if firesB W L θ agents i then dur else a.interactionCooldown) - 1
         else (if firesB W L θ agents i then dur else a.interactionCooldown)) ∧
      0 ≤ a'.interactionCooldown := by
  constructor
  · intro hpos
    rw [Bool.eq_false_iff, Ne, firesB_true_iff W L θ agents i a ha]
    rintro ⟨hzero, -, -⟩
    omega
  · obtain ⟨hlen, hpos, hmem, hload, hun, hcool, hcnt⟩ :=
      phaseAGo_spec W L θ dur agents (List.range agents.length) agents cnt
        (fun k => rfl) (fun k => rfl) (fun k => rfl) (fun k _ => rfl) (List.nodup_range _)
    have hilt : i < agents.length := by
      by_contra hge
      rw [List.getElem?_eq_none (by omega)] at ha
      simp at ha
    have hci := hcool i (List.mem_range.mpr hilt)
    rw [ha] at hci
    cases hmid : (phaseAGo W L θ dur agents (List.range agents.length) agents cnt).1[i]? with
    | none =>
      rw [hmid] at hci
      rcases hf : firesB W L θ agents i <;> rw [hf] at hci <;> simp at hci
    | some am =>
      rw [hmid] at hci
      have hcoolam : am.interactionCooldown =
          (if firesB W L θ agents i then dur else a.interactionCooldown) := by
        rcases hf : firesB W L θ agents i <;> rw [hf] at hci <;> simpa using hci
      refine ⟨if 0 < am.interactionCooldown then
          { am with interactionCooldown := am.interactionCooldown - 1 } else am, ?_, ?_, ?_⟩
      · unfold handleAntInteractions
        dsimp only
        rw [List.getElem?_map, hmid]
        rfl
      · rw [← hcoolam]
        split_ifs with h
        · rfl
        · rfl
      · have hnn : 0 ≤ am.interactionCooldown := by
          rw [hcoolam]
          split_ifs <;> omega
        split_ifs with h
        · show 0 ≤ am.interactionCooldown - 1
          omega
        · exact hnn

/-- Witness for C5's amended theorem: the firing agent of the 1×2-grid
scenario with duration 20 and threshold 0. -/
theorem handleAntInteractions_cooldown_witness :
    ([antCarrying (0, 0) foodA, antEmptyAt (0, 1)] : List AntState)[0]? =
      some (antCarrying (0, 0) foodA) ∧
    (0 : ℤ) ≤ 20 ∧ (0 : ℤ) ≤ (antCarrying (0, 0) foodA).interactionCooldown ∧
    ((0 < (antCarrying (0, 0) foodA).interactionCooldown →
      firesB 1 2 0 [antCarrying (0, 0) foodA, antEmptyAt (0, 1)] 0 = false) ∧
    ∃ a' : AntState,
      (handleAntInteractions 1 2 0 20 [antCarrying (0, 0) foodA, antEmptyAt (0, 1)] 0).1[0]? =
        some a' ∧
      a'.interactionCooldown =
        (if 0 < (if firesB 1 2 0 [antCarrying (0, 0) foodA, antEmptyAt (0, 1)] 0 then (20 : ℤ)
           else (antCarrying (0, 0) foodA).interactionCooldown)
         then (if firesB 1 2 0 [antCarrying (0, 0) foodA, antEmptyAt (0, 1)] 0 then (20 : ℤ)
           else (antCarrying (0, 0) foodA).interactionCooldown) - 1
         else (if firesB 1 2 0 [antCarrying (0, 0) foodA, antEmptyAt (0, 1)] 0 then (20 : ℤ)
           else (antCarrying (0, 0) foodA).interactionCooldown)) ∧
      0 ≤ a'.interactionCooldown) :=
  ⟨rfl, by norm_num, by decide,
    handleAntInteractions_cooldown 1 2 0 20 [antCarrying (0, 0) foodA, antEmptyAt (0, 1)] 0 0
      (antCarrying (0, 0) foodA) rfl (by norm_num) (by decide)⟩

/-- Counterexample to C5 as stated: with cooldown duration 20 and
threshold 0, the loaded agent at (0,0) fires (the counter becomes 1), yet
after the step its cooldown is 19, not 20 — Phase B of the same
`handleAntInteractions` call already decremented it. -/
theorem handleAntInteractions_cooldown_counterexample :
    ((handleAntInteractions 1 2 0 20 [antCarrying (0, 0) foodA, antEmptyAt (0, 1)] 0).1[0]?).map
        AntState.interactionCooldown = some 19 ∧
    ((handleAntInteractions 1 2 0 20 [antCarrying (0, 0) foodA, antEmptyAt (0, 1)] 0).1[0]?).map
        AntState.interactionCooldown ≠ some 20 ∧
    (handleAntInteractions 1 2 0 20 [antCarrying (0, 0) foodA, antEmptyAt (0, 1)] 0).2 = 1 := by
  refine ⟨by decide, by decide, by decide⟩

/-- C9: the caller-supplied generator is NOT the source of every draw in
`Ant::move`.  On a fully interior cell (agent at (1,1) of a 3×3 grid) the
weighted-with-inertia direction sample is drawn from the function-local
`static std::mt19937` hidden inside `Ant::getRandomWeightedDirection`:
with the caller-supplied stream held fixed, two states of the hidden
generator produce different positions, so `move` is not reproducible from
the supplied generator alone (first conjunct).  The boundary branch, by
contrast, does draw from the caller-supplied generator: at the corner
(0,0) the result is independent of the hidden generator's state (second
conjunct).  This contradicts the documented contract of the `gen`
parameter ("the random number generator to use") and the spec's
determinism requirement. -/
theorem move_weighted_draw_uses_hidden_generator :
    (move 3 3 probInertia (antEmptyAt (1, 1)) (fun _ => 0) (fun _ => 0)).1.position ≠
      (move 3 3 probInertia (antEmptyAt (1, 1)) (fun _ => 0) (fun _ => 1)).1.position ∧
    (move 3 3 probInertia (antEmptyAt (0, 0)) (fun _ => 0) (fun _ => 0)).1 =
      (move 3 3 probInertia (antEmptyAt (0, 0)) (fun _ => 0) (fun _ => 1)).1 := by
  constructor
  · decide
  · decide

theorem mem_gridFinset (W L : ℕ) (c : Cell) :
    c ∈ gridFinset W L ↔ inBounds W L c = true := by
  unfold gridFinset inBounds
  rw [Finset.mem_image]
  simp only [Finset.mem_product, Finset.mem_range, decide_eq_true_eq]
  constructor
  · rintro ⟨⟨px, py⟩, ⟨hx, hy⟩, rfl⟩
    dsimp only
    refine ⟨by positivity, by exact_mod_cast hx, by positivity, by exact_mod_cast hy⟩
  · rintro ⟨h1, h2, h3, h4⟩
    refine ⟨(c.1.toNat, c.2.toNat), ⟨?_, ?_⟩, ?_⟩
    · dsimp only
      omega
    · dsimp only
      omega
    · dsimp only
      rw [Int.toNat_of_nonneg h1, Int.toNat_of_nonneg h3]

theorem gridFinset_card (W L : ℕ) : (gridFinset W L).card = W * L := by
  unfold gridFinset
  rw [Finset.card_image_of_injective]
  · rw [Finset.card_product, Finset.card_range, Finset.card_range]
  · intro p q h
    simp only [Prod.mk.injEq] at h
    ext
    · exact_mod_cast h.1
    · exact_mod_cast h.2

theorem mem_cellList (W L : ℕ) (c : Cell) :
    c ∈ cellList W L ↔ inBounds W L c = true := by
  constructor
  · intro h
    unfold cellList at h
    rw [List.mem_flatMap] at h
    obtain ⟨x, hx, h2⟩ := h
    rw [List.mem_map] at h2
    obtain ⟨y, hy, rfl⟩ := h2
    rw [List.mem_range] at hx hy
    unfold inBounds
    rw [decide_eq_true_eq]
    dsimp only
    refine ⟨?_, ?_, ?_, ?_⟩ <;> simp only [Int.ofNat_eq_natCast] <;> [skip; skip; skip; skip] <;>
      first
        | exact Int.natCast_nonneg _
        | exact_mod_cast hx
        | exact_mod_cast hy
  · intro h
    unfold inBounds at h
    rw [decide_eq_true_eq] at h
    obtain ⟨h1, h2, h3, h4⟩ := h
    unfold cellList
    rw [List.mem_flatMap]
    refine ⟨c.1.toNat, List.mem_range.mpr (by omega), ?_⟩
    rw [List.mem_map]
    refine ⟨c.2.toNat, List.mem_range.mpr (by omega), ?_⟩
    simp only [Int.ofNat_eq_natCast]
    rw [Int.toNat_of_nonneg h1, Int.toNat_of_nonneg h3]

theorem nbrs_inBounds (W L : ℕ) (c d : Cell) (h : d ∈ getPossiblePositions W L c) :
    inBounds W L d = true :=
  (List.mem_filter.mp h).2

theorem nbrs_length_le (W L : ℕ) (c : Cell) :
    (getPossiblePositions W L c).length ≤ 8 := by
  calc (getPossiblePositions W L c).length
      ≤ (neighborOffsets.map (fun o => (c.1 + o.1, c.2 + o.2))).length :=
        (List.filter_sublist _).length_le
    _ = 8 := by rw [List.length_map]; rfl

theorem mem_nbrs_iff (W L : ℕ) (c d : Cell) :
    d ∈ getPossiblePositions W L c ↔
      (∃ o ∈ neighborOffsets, d = (c.1 + o.1, c.2 + o.2)) ∧ inBounds W L d = true := by
  unfold getPossiblePositions
  rw [List.mem_filter, List.mem_map]
  constructor
  · rintro ⟨⟨o, ho, rfl⟩, hb⟩
    exact ⟨⟨o, ho, rfl⟩, hb⟩
  · rintro ⟨⟨o, ho, rfl⟩, hb⟩
    exact ⟨⟨o, ho, rfl⟩, hb⟩

theorem nbrs_symm (W L : ℕ) (c d : Cell) (hc : inBounds W L c = true)
    (h : d ∈ getPossiblePositions W L c) : c ∈ getPossiblePositions W L d := by
  rw [mem_nbrs_iff] at h ⊢
  obtain ⟨⟨o, ho, hd⟩, -⟩ := h
  refine ⟨⟨(-o.1, -o.2), ?_, ?_⟩, hc⟩
  · fin_cases ho <;> decide
  · subst hd
    rw [Prod.ext_iff]
    dsimp only
    constructor <;> ring

section ComponentLemmas

variable (W L : ℕ) (occ : Cell → Option Object)

theorem stepRel_iff (c d : Cell) :
    stepRel W L occ c d ↔
      d ∈ getPossiblePositions W L c ∧ ∃ o : Object, occ c = some o ∧ occ d = some o := by
  unfold stepRel sameRefAdj
  simp only [Bool.and_eq_true, decide_eq_true_eq, Option.isSome_iff_exists]
  constructor
  · rintro ⟨⟨hm, o, ho⟩, he⟩
    exact ⟨hm, o, ho, by rw [← he, ho]⟩
  · rintro ⟨hm, o, hc, hd⟩
    exact ⟨⟨hm, o, hc⟩, by rw [hc, hd]⟩

theorem stepRel_occ_eq {c d : Cell} (h : stepRel W L occ c d) : occ c = occ d := by
  obtain ⟨-, o, hc, hd⟩ := (stepRel_iff W L occ c d).mp h
  rw [hc, hd]

theorem reach_occ_eq {s x : Cell} (h : reach W L occ s x) : occ s = occ x := by
  induction h with
  | refl => rfl
  | tail h1 h2 ih => rw [ih, stepRel_occ_eq W L occ h2]

theorem stepRel_symm
    (OinB : ∀ (c : Cell) (o : Object), occ c = some o → inBounds W L c = true)
    {c d : Cell} (h : stepRel W L occ c d) : stepRel W L occ d c := by
  obtain ⟨hm, o, hc, hd⟩ := (stepRel_iff W L occ c d).mp h
  exact (stepRel_iff W L occ d c).mpr
    ⟨nbrs_symm W L c d (OinB c o hc) hm, o, hd, hc⟩

theorem reach_symm
    (OinB : ∀ (c : Cell) (o : Object), occ c = some o → inBounds W L c = true)
    {s x : Cell} (h : reach W L occ s x) : reach W L occ x s := by
  induction h with
  | refl => exact Relation.ReflTransGen.refl
  | tail h1 h2 ih => exact Relation.ReflTransGen.head (stepRel_symm W L occ OinB h2) ih

theorem subset_specCompStep (S : Finset Cell) : S ⊆ specCompStep W L occ S :=
  Finset.subset_union_left

theorem iterate_specCompStep_succ (s : Cell) (n : ℕ) :
    (specCompStep W L occ)^[n] {s} ⊆ (specCompStep W L occ)^[n + 1] {s} := by
  rw [Function.iterate_succ_apply']
  exact subset_specCompStep W L occ _

theorem iterate_specCompStep_mono (s : Cell) {m n : ℕ} (h : m ≤ n) :
    (specCompStep W L occ)^[m] {s} ⊆ (specCompStep W L occ)^[n] {s} := by
  induction n with
  | zero =>
    obtain rfl : m = 0 := by omega
    exact subset_rfl
  | succ n ih =>
    rcases Nat.lt_or_ge m (n + 1) with hlt | hge
    · exact (ih (by omega)).trans (iterate_specCompStep_succ W L occ s n)
    · obtain rfl : m = n + 1 := by omega
      exact subset_rfl

theorem iterate_specCompStep_subset_grid (s : Cell) (hs : s ∈ gridFinset W L) (n : ℕ) :
    (specCompStep W L occ)^[n] {s} ⊆ gridFinset W L := by
  induction n with
  | zero => simpa using hs
  | succ n ih =>
    rw [Function.iterate_succ_apply']
    unfold specCompStep
    exact Finset.union_subset ih (Finset.filter_subset _ _)

theorem mem_iterate_reach (s : Cell) (n : ℕ) :
    ∀ x ∈ (specCompStep W L occ)^[n] {s}, reach W L occ s x := by
  induction n with
  | zero =>
    intro x hx
    obtain rfl : x = s := by simpa using hx
    exact Relation.ReflTransGen.refl
  | succ n ih =>
    rw [Function.iterate_succ_apply']
    intro x hx
    unfold specCompStep at hx
    rw [Finset.mem_union] at hx
    rcases hx with hx | hx
    · exact ih x hx
    · rw [Finset.mem_filter] at hx
      obtain ⟨-, c, hcS, hstep⟩ := hx
      exact Relation.ReflTransGen.tail (ih c hcS) hstep

theorem iterate_specCompStep_growth (s : Cell) (k : ℕ)
    (h : ∀ j : ℕ, j < k → (specCompStep W L occ)^[j + 1] {s} ≠ (specCompStep W L occ)^[j] {s}) :
    k + 1 ≤ ((specCompStep W L occ)^[k] {s}).card := by
  induction k with
  | zero => simp
  | succ k ih =>
    have hk : k + 1 ≤ ((specCompStep W L occ)^[k] {s}).card :=
      ih (fun j hj => h j (by omega))
    have hss : (specCompStep W L occ)^[k] {s} ⊂ (specCompStep W L occ)^[k + 1] {s} :=
      lt_of_le_of_ne (iterate_specCompStep_succ W L occ s k) (Ne.symm (h k (by omega)))
    have := Finset.card_lt_card hss
    omega

theorem specCompStep_stabilize (s : Cell) (k : ℕ)
    (h : (specCompStep W L occ)^[k + 1] {s} = (specCompStep W L occ)^[k] {s}) :
    ∀ m : ℕ, k ≤ m → (specCompStep W L occ)^[m] {s} = (specCompStep W L occ)^[k] {s} := by
  intro m
  induction m with
  | zero =>
    intro hm
    obtain rfl : k = 0 := by omega
    rfl
  | succ m ih =>
    intro hm
    rcases Nat.lt_or_ge k (m + 1) with hlt | hge
    · have hkm : k ≤ m := by omega
      rw [Function.iterate_succ_apply', ih hkm,
        ← Function.iterate_succ_apply' (specCompStep W L occ) k {s}, h]
    · obtain rfl : k = m + 1 := by omega
      rfl

theorem specComponent_fixpoint (s : Cell) (hs : inBounds W L s = true) :
    specCompStep W L occ (specComponent W L occ s) = specComponent W L occ s := by
  have hsg : s ∈ gridFinset W L := (mem_gridFinset W L s).mpr hs
  have hex : ∃ k : ℕ, k ≤ W * L ∧
      (specCompStep W L occ)^[k + 1] {s} = (specCompStep W L occ)^[k] {s} := by
    by_contra hno
    push_neg at hno
    have hgrow : W * L + 1 ≤ ((specCompStep W L occ)^[W * L] {s}).card := by
      apply iterate_specCompStep_growth
      intro j hj
      exact hno j (by omega)
    have hle : ((specCompStep W L occ)^[W * L] {s}).card ≤ (gridFinset W L).card :=
      Finset.card_le_card (iterate_specCompStep_subset_grid W L occ s hsg (W * L))
    rw [gridFinset_card] at hle
    omega
  obtain ⟨k, hk, hfix⟩ := hex
  unfold specComponent
  have h1 : (specCompStep W L occ)^[W * L] {s} = (specCompStep W L occ)^[k] {s} :=
    specCompStep_stabilize W L occ s k hfix (W * L) hk
  rw [h1, ← Function.iterate_succ_apply' (specCompStep W L occ) k {s}, hfix]

theorem self_mem_specComponent (s : Cell) : s ∈ specComponent W L occ s := by
  unfold specComponent
  exact iterate_specCompStep_mono W L occ s (Nat.zero_le _) (by simp)

theorem mem_specComponent_reach (s x : Cell) (hx : x ∈ specComponent W L occ s) :
    reach W L occ s x :=
  mem_iterate_reach W L occ s (W * L) x hx

theorem reach_mem_specComponent (s : Cell) (hs : inBounds W L s = true) {x : Cell}
    (h : reach W L occ s x) : x ∈ specComponent W L occ s := by
  induction h with
  | refl => exact self_mem_specComponent W L occ s
  | tail h1 h2 ih =>
    rename_i b c
    rw [← specComponent_fixpoint W L occ s hs]
    unfold specCompStep
    rw [Finset.mem_union, Finset.mem_filter]
    right
    refine ⟨?_, b, ih, h2⟩
    obtain ⟨hm, -⟩ := (stepRel_iff W L occ b c).mp h2
    exact (mem_gridFinset W L c).mpr (nbrs_inBounds W L b c hm)

theorem specComponent_occ_eq (s : Cell) (t : Object) (ht : occ s = some t)
    {x : Cell} (hx : x ∈ specComponent W L occ s) : occ x = some t := by
  rw [← reach_occ_eq W L occ (mem_specComponent_reach W L occ s x hx)]
  exact ht

theorem specComponent_closed (s : Cell) (t : Object) (hs : inBounds W L s = true)
    (ht : occ s = some t) {x n : Cell} (hx : x ∈ specComponent W L occ s)
    (hn : n ∈ getPossiblePositions W L x) (hocc : occ n = some t) :
    n ∈ specComponent W L occ s := by
  apply reach_mem_specComponent W L occ s hs
  apply Relation.ReflTransGen.tail (mem_specComponent_reach W L occ s x hx)
  exact (stepRel_iff W L occ x n).mpr
    ⟨hn, t, specComponent_occ_eq W L occ s t ht hx, hocc⟩

theorem specComponent_subset_grid (s : Cell) (hs : inBounds W L s = true) :
    specComponent W L occ s ⊆ gridFinset W L :=
  iterate_specCompStep_subset_grid W L occ s ((mem_gridFinset W L s).mpr hs) (W * L)

theorem specComponent_eq_of_mem
    (OinB : ∀ (c : Cell) (o : Object), occ c = some o → inBounds W L c = true)
    (a b : Cell) (ha : inBounds W L a = true) (hb : inBounds W L b = true)
    (y : Cell) (hya : y ∈ specComponent W L occ a) (hyb : y ∈ specComponent W L occ b) :
    specComponent W L occ a = specComponent W L occ b := by
  have hab : reach W L occ a b :=
    Relation.ReflTransGen.trans (mem_specComponent_reach W L occ a y hya)
      (reach_symm W L occ OinB (mem_specComponent_reach W L occ b y hyb))
  have hba : reach W L occ b a := reach_symm W L occ OinB hab
  ext x
  constructor
  · intro hx
    exact reach_mem_specComponent W L occ b hb
      (Relation.ReflTransGen.trans hba (mem_specComponent_reach W L occ a x hx))
  · intro hx
    exact reach_mem_specComponent W L occ a ha
      (Relation.ReflTransGen.trans hab (mem_specComponent_reach W L occ b x hx))

end ComponentLemmas

theorem bfsClusterAux_spec (W L : ℕ) (occ : Cell → Option Object) (t : Object)
    (C : Finset Cell)
    (hC2 : ∀ c ∈ C, ∀ n ∈ getPossiblePositions W L c, occ n = some t → n ∈ C)
    (H : ∀ (c d : Cell), d ∈ getPossiblePositions W L c →
      ∀ (o o' : Object), occ c = some o → occ d = some o' → o = o') :
    ∀ (fuel : ℕ) (q : List Cell) (vis : Finset Cell),
    (∀ c ∈ q, inBounds W L c = true ∧ (∀ o : Object, occ c = some o → c ∈ C)) →
    (∀ d ∈ vis, occ d = some t → ∀ n ∈ getPossiblePositions W L d, n ∈ vis ∨ n ∈ q) →
    9 * (((gridFinset W L ∪ q.toFinset) \ vis).card) + q.length ≤ fuel →
    (vis ⊆ (bfsClusterAux W L occ t fuel q vis).2 ∧
     (∀ c ∈ q, c ∈ (bfsClusterAux W L occ t fuel q vis).2) ∧
     (∀ x ∈ (bfsClusterAux W L occ t fuel q vis).2,
        x ∈ vis ∨ x ∈ q ∨ ∃ c : Cell, c ∈ C ∧ c ∉ vis ∧ x ∈ getPossiblePositions W L c) ∧
     (∀ d ∈ (bfsClusterAux W L occ t fuel q vis).2, occ d = some t →
        ∀ n ∈ getPossiblePositions W L d, n ∈ (bfsClusterAux W L occ t fuel q vis).2) ∧
     (bfsClusterAux W L occ t fuel q vis).1 =
       (((bfsClusterAux W L occ t fuel q vis).2 \ vis).filter
         (fun x => occ x = some t)).card) := by
  intro fuel
  induction fuel with
  | zero =>
    intro q vis hq hvis hfuel
    have hq0 : q = [] := List.length_eq_zero.mp (by omega)
    subst hq0
    refine ⟨subset_rfl, fun c hc => absurd hc (List.not_mem_nil c),
      fun x hx => Or.inl hx, ?_,
      by show (0 : ℕ) = ((vis \ vis).filter (fun x => occ x = some t)).card; simp⟩
    intro d hd hdt n hn
    rcases hvis d hd hdt n hn with h | h
    · exact h
    · exact absurd h (List.not_mem_nil n)
  | succ fuel ih =>
    intro q vis hq hvis hfuel
    cases q with
    | nil =>
      refine ⟨subset_rfl, fun c hc => absurd hc (List.not_mem_nil c),
        fun x hx => Or.inl hx, ?_,
        by show (0 : ℕ) = ((vis \ vis).filter (fun x => occ x = some t)).card; simp⟩
      intro d hd hdt n hn
      rcases hvis d hd hdt n hn with h | h
      · exact h
      · exact absurd h (List.not_mem_nil n)
    | cons current rest =>
      by_cases hcv : current ∈ vis
      · have heq : bfsClusterAux W L occ t (fuel + 1) (current :: rest) vis =
            bfsClusterAux W L occ t fuel rest vis := by
          simp only [bfsClusterAux]
          rw [if_pos hcv]
        rw [heq]
        have hcard : ((gridFinset W L ∪ rest.toFinset) \ vis).card ≤
            ((gridFinset W L ∪ (current :: rest).toFinset) \ vis).card := by
          apply Finset.card_le_card
          apply Finset.sdiff_subset_sdiff _ subset_rfl
          apply Finset.union_subset_union subset_rfl
          intro x hx
          rw [List.mem_toFinset] at hx ⊢
          exact List.mem_cons_of_mem current hx
        obtain ⟨ih1, ih2, ih3, ih4, ih5⟩ := ih rest vis
          (fun c hc => hq c (List.mem_cons_of_mem current hc))
          (fun d hd hdt n hn => by
            rcases hvis d hd hdt n hn with h | h
            · exact Or.inl h
            · rcases List.mem_cons.mp h with rfl | h
              · exact Or.inl hcv
              · exact Or.inr h)
          (by simp only [List.length_cons] at hfuel; omega)
        refine ⟨ih1, ?_, ?_, ih4, ih5⟩
        · intro c hc
          rcases List.mem_cons.mp hc with rfl | hc
          · exact ih1 hcv
          · exact ih2 c hc
        · intro x hx
          rcases ih3 x hx with h | h | ⟨c, hc1, hc2, hc3⟩
          · exact Or.inl h
          · exact Or.inr (Or.inl (List.mem_cons_of_mem current h))
          · exact Or.inr (Or.inr ⟨c, hc1, hc2, hc3⟩)
      · have hcur := hq current (List.mem_cons_self current rest)
        have hcurU : current ∈ (gridFinset W L ∪ (current :: rest).toFinset) \ vis := by
          rw [Finset.mem_sdiff, Finset.mem_union, List.mem_toFinset]
          exact ⟨Or.inr (List.mem_cons_self current rest), hcv⟩
        by_cases hmatch : occ current = some t
        · have hcurC : current ∈ C := hcur.2 t hmatch
          have heq : bfsClusterAux W L occ t (fuel + 1) (current :: rest) vis =
              ((bfsClusterAux W L occ t fuel
                  (rest ++ (getPossiblePositions W L current).filter
                    (fun n => n ∉ insert current vis))
                  (insert current vis)).1 + 1,
               (bfsClusterAux W L occ t fuel
                  (rest ++ (getPossiblePositions W L current).filter
                    (fun n => n ∉ insert current vis))
                  (insert current vis)).2) := by
            simp only [bfsClusterAux]
            rw [if_neg hcv, if_pos hmatch]
          rw [heq]
          have hq' : ∀ c ∈ rest ++ (getPossiblePositions W L current).filter
              (fun n => n ∉ insert current vis),
              inBounds W L c = true ∧ (∀ o : Object, occ c = some o → c ∈ C) := by
            intro c hc
            rcases List.mem_append.mp hc with hc | hc
            · exact hq c (List.mem_cons_of_mem current hc)
            · have hcn : c ∈ getPossiblePositions W L current := (List.mem_filter.mp hc).1
              refine ⟨nbrs_inBounds W L current c hcn, ?_⟩
              intro o ho
              have : t = o := H current c hcn t o hmatch ho
              exact hC2 current hcurC c hcn (this ▸ ho)
          have hvis' : ∀ d ∈ insert current vis, occ d = some t →
              ∀ n ∈ getPossiblePositions W L d,
              n ∈ insert current vis ∨
              n ∈ rest ++ (getPossiblePositions W L current).filter
                (fun n => n ∉ insert current vis) := by
            intro d hd hdt n hn
            rcases Finset.mem_insert.mp hd with heq | hd
            · rw [heq] at hn
              by_cases hni : n ∈ insert current vis
              · exact Or.inl hni
              · exact Or.inr (List.mem_append.mpr
                  (Or.inr (List.mem_filter.mpr ⟨hn, by simpa using hni⟩)))
            · rcases hvis d hd hdt n hn with h | h
              · exact Or.inl (Finset.mem_insert_of_mem h)
              · rcases List.mem_cons.mp h with rfl | h
                · exact Or.inl (Finset.mem_insert_self n vis)
                · exact Or.inr (List.mem_append.mpr (Or.inl h))
          have hfuel' : 9 * (((gridFinset W L ∪
              (rest ++ (getPossiblePositions W L current).filter
                (fun n => n ∉ insert current vis)).toFinset) \ insert current vis).card) +
              (rest ++ (getPossiblePositions W L current).filter
                (fun n => n ∉ insert current vis)).length ≤ fuel := by
            have hlen : (rest ++ (getPossiblePositions W L current).filter
                (fun n => n ∉ insert current vis)).length ≤ rest.length + 8 := by
              rw [List.length_append]
              have : ((getPossiblePositions W L current).filter
                  (fun n => n ∉ insert current vis)).length ≤
                  (getPossiblePositions W L current).length :=
                (List.filter_sublist _).length_le
              have h8 := nbrs_length_le W L current
              omega
            have hsub : (gridFinset W L ∪
                (rest ++ (getPossiblePositions W L current).filter
                  (fun n => n ∉ insert current vis)).toFinset) \ insert current vis ⊆
                ((gridFinset W L ∪ (current :: rest).toFinset) \ vis).erase current := by
              intro x hx
              rw [Finset.mem_sdiff, Finset.mem_union, List.mem_toFinset] at hx
              obtain ⟨hx1, hx2⟩ := hx
              rw [Finset.mem_insert] at hx2
              push_neg at hx2
              rw [Finset.mem_erase, Finset.mem_sdiff, Finset.mem_union, List.mem_toFinset]
              refine ⟨hx2.1, ?_, hx2.2⟩
              rcases hx1 with hx1 | hx1
              · exact Or.inl hx1
              · rcases List.mem_append.mp hx1 with hx1 | hx1
                · exact Or.inr (List.mem_cons_of_mem current hx1)
                · have : x ∈ getPossiblePositions W L current := (List.mem_filter.mp hx1).1
                  exact Or.inl ((mem_gridFinset W L x).mpr (nbrs_inBounds W L current x this))
            have hcard : ((gridFinset W L ∪
                (rest ++ (getPossiblePositions W L current).filter
                  (fun n => n ∉ insert current vis)).toFinset) \ insert current vis).card ≤
                ((gridFinset W L ∪ (current :: rest).toFinset) \ vis).card - 1 := by
              calc _ ≤ (((gridFinset W L ∪ (current :: rest).toFinset) \ vis).erase current).card :=
                    Finset.card_le_card hsub
                _ = ((gridFinset W L ∪ (current :: rest).toFinset) \ vis).card - 1 :=
                    Finset.card_erase_of_mem hcurU
            have hpos : 1 ≤ ((gridFinset W L ∪ (current :: rest).toFinset) \ vis).card :=
              Finset.card_pos.mpr ⟨current, hcurU⟩
            simp only [List.length_cons] at hfuel
            omega
          obtain ⟨ih1, ih2, ih3, ih4, ih5⟩ := ih _ _ hq' hvis' hfuel'
          have hvsub : vis ⊆ (bfsClusterAux W L occ t fuel
              (rest ++ (getPossiblePositions W L current).filter
                (fun n => n ∉ insert current vis))
              (insert current vis)).2 :=
            (Finset.subset_insert current vis).trans ih1
          have hcurR : current ∈ (bfsClusterAux W L occ t fuel
              (rest ++ (getPossiblePositions W L current).filter
                (fun n => n ∉ insert current vis))
              (insert current vis)).2 :=
            ih1 (Finset.mem_insert_self current vis)
          refine ⟨hvsub, ?_, ?_, ih4, ?_⟩
          · intro c hc
            rcases List.mem_cons.mp hc with rfl | hc
            · exact hcurR
            · exact ih2 c (List.mem_append.mpr (Or.inl hc))
          · intro x hx
            rcases ih3 x hx with h | h | ⟨c, hc1, hc2, hc3⟩
            · rcases Finset.mem_insert.mp h with rfl | h
              · exact Or.inr (Or.inl (List.mem_cons_self x rest))
              · exact Or.inl h
            · rcases List.mem_append.mp h with h | h
              · exact Or.inr (Or.inl (List.mem_cons_of_mem current h))
              · exact Or.inr (Or.inr ⟨current, hcurC, hcv, (List.mem_filter.mp h).1⟩)
            · refine Or.inr (Or.inr ⟨c, hc1, ?_, hc3⟩)
              intro hcvis
              exact hc2 (Finset.mem_insert_of_mem hcvis)
          · show (bfsClusterAux W L occ t fuel _ (insert current vis)).1 + 1 = _
            rw [ih5]
            have hset : ((bfsClusterAux W L occ t fuel
                (rest ++ (getPossiblePositions W L current).filter
                  (fun n => n ∉ insert current vis))
                (insert current vis)).2 \ vis).filter (fun x => occ x = some t) =
                insert current (((bfsClusterAux W L occ t fuel
                  (rest ++ (getPossiblePositions W L current).filter
                    (fun n => n ∉ insert current vis))
                  (insert current vis)).2 \ insert current vis).filter
                    (fun x => occ x = some t)) := by
              ext x
              constructor
              · intro hx
                rw [Finset.mem_filter, Finset.mem_sdiff] at hx
                rw [Finset.mem_insert]
                by_cases hxc : x = current
                · exact Or.inl hxc
                · right
                  rw [Finset.mem_filter, Finset.mem_sdiff]
                  refine ⟨⟨hx.1.1, ?_⟩, hx.2⟩
                  intro hins
                  rcases Finset.mem_insert.mp hins with heq | hmem
                  · exact hxc heq
                  · exact hx.1.2 hmem
              · intro hx
                rcases Finset.mem_insert.mp hx with heq | hmem
                · rw [Finset.mem_filter, Finset.mem_sdiff, heq]
                  exact ⟨⟨hcurR, hcv⟩, hmatch⟩
                · rw [Finset.mem_filter, Finset.mem_sdiff] at hmem ⊢
                  exact ⟨⟨hmem.1.1, fun hv => hmem.1.2 (Finset.mem_insert_of_mem hv)⟩, hmem.2⟩
            rw [hset, Finset.card_insert_of_not_mem]
            rw [Finset.mem_filter, Finset.mem_sdiff]
            rintro ⟨⟨-, hcurv⟩, -⟩
            exact hcurv (Finset.mem_insert_self current vis)
        · have heq : bfsClusterAux W L occ t (fuel + 1) (current :: rest) vis =
              bfsClusterAux W L occ t fuel rest (insert current vis) := by
            simp only [bfsClusterAux]
            rw [if_neg hcv, if_neg hmatch]
          rw [heq]
          have hvis' : ∀ d ∈ insert current vis, occ d = some t →
              ∀ n ∈ getPossiblePositions W L d, n ∈ insert current vis ∨ n ∈ rest := by
            intro d hd hdt n hn
            rcases Finset.mem_insert.mp hd with rfl | hd
            · exact absurd hdt hmatch
            · rcases hvis d hd hdt n hn with h | h
              · exact Or.inl (Finset.mem_insert_of_mem h)
              · rcases List.mem_cons.mp h with rfl | h
                · exact Or.inl (Finset.mem_insert_self n vis)
                · exact Or.inr h
          have hfuel' : 9 * (((gridFinset W L ∪ rest.toFinset) \ insert current vis).card) +
              rest.length ≤ fuel := by
            have hsub : (gridFinset W L ∪ rest.toFinset) \ insert current vis ⊆
                ((gridFinset W L ∪ (current :: rest).toFinset) \ vis).erase current := by
              intro x hx
              rw [Finset.mem_sdiff, Finset.mem_union, List.mem_toFinset] at hx
              obtain ⟨hx1, hx2⟩ := hx
              rw [Finset.mem_insert] at hx2
              push_neg at hx2
              rw [Finset.mem_erase, Finset.mem_sdiff, Finset.mem_union, List.mem_toFinset]
              refine ⟨hx2.1, ?_, hx2.2⟩
              rcases hx1 with hx1 | hx1
              · exact Or.inl hx1
              · exact Or.inr (List.mem_cons_of_mem current hx1)
            have hcard : ((gridFinset W L ∪ rest.toFinset) \ insert current vis).card ≤
                ((gridFinset W L ∪ (current :: rest).toFinset) \ vis).card - 1 := by
              calc _ ≤ (((gridFinset W L ∪ (current :: rest).toFinset) \ vis).erase current).card :=
                    Finset.card_le_card hsub
                _ = ((gridFinset W L ∪ (current :: rest).toFinset) \ vis).card - 1 :=
                    Finset.card_erase_of_mem hcurU
            have hpos : 1 ≤ ((gridFinset W L ∪ (current :: rest).toFinset) \ vis).card :=
              Finset.card_pos.mpr ⟨current, hcurU⟩
            simp only [List.length_cons] at hfuel
            omega
          obtain ⟨ih1, ih2, ih3, ih4, ih5⟩ := ih rest (insert current vis)
            (fun c hc => hq c (List.mem_cons_of_mem current hc)) hvis' hfuel'
          have hvsub : vis ⊆ (bfsClusterAux W L occ t fuel rest (insert current vis)).2 :=
            (Finset.subset_insert current vis).trans ih1
          have hcurR : current ∈ (bfsClusterAux W L occ t fuel rest (insert current vis)).2 :=
            ih1 (Finset.mem_insert_self current vis)
          refine ⟨hvsub, ?_, ?_, ih4, ?_⟩
          · intro c hc
            rcases List.mem_cons.mp hc with rfl | hc
            · exact hcurR
            · exact ih2 c hc
          · intro x hx
            rcases ih3 x hx with h | h | ⟨c, hc1, hc2, hc3⟩
            · rcases Finset.mem_insert.mp h with rfl | h
              · exact Or.inr (Or.inl (List.mem_cons_self x rest))
              · exact Or.inl h
            · exact Or.inr (Or.inl (List.mem_cons_of_mem current h))
            · refine Or.inr (Or.inr ⟨c, hc1, ?_, hc3⟩)
              intro hcvis
              exact hc2 (Finset.mem_insert_of_mem hcvis)
          · rw [ih5]
            congr 1
            ext x
            constructor
            · intro hx
              rw [Finset.mem_filter, Finset.mem_sdiff] at hx ⊢
              refine ⟨⟨hx.1.1, ?_⟩, hx.2⟩
              intro hmem
              exact hx.1.2 (Finset.mem_insert_of_mem hmem)
            · intro hx
              rw [Finset.mem_filter, Finset.mem_sdiff] at hx ⊢
              refine ⟨⟨hx.1.1, ?_⟩, hx.2⟩
              intro hins
              rcases Finset.mem_insert.mp hins with heq | hmem
              · exact hmatch (heq ▸ hx.2)
              · exact hx.1.2 hmem

theorem bfsCluster_spec (W L : ℕ) (occ : Cell → Option Object) (t : Object) (s : Cell)
    (vis : Finset Cell)
    (OinB : ∀ (c : Cell) (o : Object), occ c = some o → inBounds W L c = true)
    (H : ∀ (c d : Cell), d ∈ getPossiblePositions W L c →
      ∀ (o o' : Object), occ c = some o → occ d = some o' → o = o')
    (hs : occ s = some t) (hsv : s ∉ vis) (htv : isValidType t = true)
    (hvisClosed : ∀ d ∈ vis, ∀ o : Object, occ d = some o → isValidType o = true →
      ∀ n ∈ getPossiblePositions W L d, n ∈ vis) :
    ((bfsCluster W L occ s t vis).1 = (specComponent W L occ s).card ∧
     vis ⊆ (bfsCluster W L occ s t vis).2 ∧
     specComponent W L occ s ⊆ (bfsCluster W L occ s t vis).2 ∧
     (∀ x ∈ (bfsCluster W L occ s t vis).2, x ∉ vis →
        ∀ o : Object, occ x = some o → x ∈ specComponent W L occ s) ∧
     (∀ d ∈ (bfsCluster W L occ s t vis).2, ∀ o : Object, occ d = some o →
        isValidType o = true →
        ∀ n ∈ getPossiblePositions W L d, n ∈ (bfsCluster W L occ s t vis).2)) := by
  have hsin : inBounds W L s = true := OinB s t hs
  have hCocc : ∀ x ∈ specComponent W L occ s, occ x = some t :=
    fun x hx => specComponent_occ_eq W L occ s t hs hx
  have hC2 : ∀ c ∈ specComponent W L occ s, ∀ n ∈ getPossiblePositions W L c,
      occ n = some t → n ∈ specComponent W L occ s :=
    fun c hc n hn hocc => specComponent_closed W L occ s t hsin hs hc hn hocc
  have heq : bfsCluster W L occ s t vis =
      bfsClusterAux W L occ t (bfsFuel W L) [s] vis := by
    unfold bfsCluster
    rw [if_pos hsin]
  have hq : ∀ c ∈ [s], inBounds W L c = true ∧
      (∀ o : Object, occ c = some o → c ∈ specComponent W L occ s) := by
    intro c hc
    obtain rfl : c = s := by simpa using hc
    exact ⟨hsin, fun o _ => self_mem_specComponent W L occ c⟩
  have hvisq : ∀ d ∈ vis, occ d = some t → ∀ n ∈ getPossiblePositions W L d,
      n ∈ vis ∨ n ∈ [s] := by
    intro d hd hdt n hn
    exact Or.inl (hvisClosed d hd t hdt htv n hn)
  have hfuel : 9 * (((gridFinset W L ∪ ([s] : List Cell).toFinset) \ vis).card) +
      ([s] : List Cell).length ≤ bfsFuel W L := by
    have h1 : ((gridFinset W L ∪ ([s] : List Cell).toFinset) \ vis).card ≤
        (gridFinset W L ∪ ([s] : List Cell).toFinset).card :=
      Finset.card_le_card (Finset.sdiff_subset)
    have h2 : (gridFinset W L ∪ ([s] : List Cell).toFinset).card ≤
        (gridFinset W L).card + ([s] : List Cell).toFinset.card :=
      Finset.card_union_le _ _
    have h3 : (([s] : List Cell).toFinset).card ≤ 1 := by simp
    rw [gridFinset_card] at h2
    unfold bfsFuel
    simp only [List.length_singleton]
    omega
  obtain ⟨b1, b2, b3, b4, b5⟩ := bfsClusterAux_spec W L occ t
    (specComponent W L occ s) hC2 H (bfsFuel W L) [s] vis hq hvisq hfuel
  rw [heq]
  have hsR : s ∈ (bfsClusterAux W L occ t (bfsFuel W L) [s] vis).2 :=
    b2 s (List.mem_singleton.mpr rfl)
  have hdisj : ∀ x ∈ specComponent W L occ s, x ∉ vis := by
    intro x hx hxv
    have hreach : ∀ y : Cell, reach W L occ x y → y ∈ vis := by
      intro y hy
      induction hy with
      | refl => exact hxv
      | tail h1 h2 ihy =>
        rename_i b c
        obtain ⟨hm, o, hob, hoc⟩ := (stepRel_iff W L occ b c).mp h2
        have hbt : occ b = some t := by
          rw [← reach_occ_eq W L occ h1, reach_occ_eq W L occ
            (reach_symm W L occ OinB (mem_specComponent_reach W L occ s x hx))]
          exact hs
        exact hvisClosed b ihy t hbt htv c hm
    have : s ∈ vis := hreach s (reach_symm W L occ OinB
      (mem_specComponent_reach W L occ s x hx))
    exact hsv this
  have hcompR : specComponent W L occ s ⊆
      (bfsClusterAux W L occ t (bfsFuel W L) [s] vis).2 := by
    intro x hx
    have hr : reach W L occ s x := mem_specComponent_reach W L occ s x hx
    clear hx
    induction hr with
    | refl => exact hsR
    | tail h1 h2 ihy =>
      rename_i b c
      obtain ⟨hm, o, hob, hoc⟩ := (stepRel_iff W L occ b c).mp h2
      have hbt : occ b = some t := by
        rw [← reach_occ_eq W L occ h1]
        exact hs
      exact b4 b ihy hbt c hm
  have hnewInComp : ∀ x ∈ (bfsClusterAux W L occ t (bfsFuel W L) [s] vis).2, x ∉ vis →
      ∀ o : Object, occ x = some o → x ∈ specComponent W L occ s := by
    intro x hx hxv o ho
    rcases b3 x hx with h | h | ⟨c, hc1, hc2, hc3⟩
    · exact absurd h hxv
    · obtain rfl : x = s := by simpa using h
      exact self_mem_specComponent W L occ x
    · have hct : occ c = some t := hCocc c hc1
      have : t = o := H c x hc3 t o hct ho
      exact hC2 c hc1 x hc3 (this ▸ ho)
  refine ⟨?_, b1, hcompR, hnewInComp, ?_⟩
  · rw [b5]
    congr 1
    ext x
    rw [Finset.mem_filter, Finset.mem_sdiff]
    constructor
    · rintro ⟨⟨hxr, hxv⟩, hxt⟩
      exact hnewInComp x hxr hxv t hxt
    · intro hx
      exact ⟨⟨hcompR hx, hdisj x hx⟩, hCocc x hx⟩
  · intro d hd o ho hov n hn
    by_cases hdv : d ∈ vis
    · exact b1 (hvisClosed d hdv o ho hov n hn)
    · have hdc : d ∈ specComponent W L occ s := hnewInComp d hd hdv o ho
      have hdt : occ d = some t := hCocc d hdc
      exact b4 d hd hdt n hn

theorem occupiedValid_iff (occ : Cell → Option Object) (c : Cell) :
    occupiedValid occ c = true ↔
      ∃ o : Object, occ c = some o ∧ isValidType o = true := by
  unfold occupiedValid
  cases h : occ c with
  | none => simp
  | some o => simp

theorem mem_specComponents_iff (W L : ℕ) (occ : Cell → Option Object) (S : Finset Cell) :
    S ∈ specComponents W L occ ↔
      ∃ c : Cell, c ∈ gridFinset W L ∧ occupiedValid occ c = true ∧
        S = specComponent W L occ c := by
  unfold specComponents
  rw [Finset.mem_image]
  constructor
  · rintro ⟨c, hc, rfl⟩
    rw [Finset.mem_filter] at hc
    exact ⟨c, hc.1, hc.2, rfl⟩
  · rintro ⟨c, h1, h2, rfl⟩
    exact ⟨c, Finset.mem_filter.mpr ⟨h1, h2⟩, rfl⟩

theorem mem_specComponents_props (W L : ℕ) (occ : Cell → Option Object)
    (S : Finset Cell) (hS : S ∈ specComponents W L occ) :
    S.Nonempty ∧ ∀ x ∈ S, x ∈ gridFinset W L ∧ occupiedValid occ x = true := by
  obtain ⟨c, hcg, hcv, rfl⟩ := (mem_specComponents_iff W L occ S).mp hS
  have hcb : inBounds W L c = true := (mem_gridFinset W L c).mp hcg
  obtain ⟨o, ho, hov⟩ := (occupiedValid_iff occ c).mp hcv
  refine ⟨⟨c, self_mem_specComponent W L occ c⟩, ?_⟩
  intro x hx
  refine ⟨specComponent_subset_grid W L occ c hcb hx, ?_⟩
  rw [occupiedValid_iff]
  exact ⟨o, specComponent_occ_eq W L occ c o ho hx, hov⟩

theorem specComponents_eq_of_mem (W L : ℕ) (occ : Cell → Option Object)
    (OinB : ∀ (c : Cell) (o : Object), occ c = some o → inBounds W L c = true)
    (S : Finset Cell) (hS : S ∈ specComponents W L occ) (x : Cell) (hx : x ∈ S)
    (s : Cell) (hs : inBounds W L s = true) (hxs : x ∈ specComponent W L occ s) :
    S = specComponent W L occ s := by
  obtain ⟨c, hcg, hcv, rfl⟩ := (mem_specComponents_iff W L occ S).mp hS
  exact specComponent_eq_of_mem W L occ OinB c s ((mem_gridFinset W L c).mp hcg) hs
    x hx hxs

theorem avgLoop_spec (W L : ℕ) (occ : Cell → Option Object)
    (OinB : ∀ (c : Cell) (o : Object), occ c = some o → inBounds W L c = true)
    (H : ∀ (c d : Cell), d ∈ getPossiblePositions W L c →
      ∀ (o o' : Object), occ c = some o → occ d = some o' → o = o')
    (OV : ∀ (c : Cell) (o : Object), occ c = some o → isValidType o = true) :
    ∀ (rem : List Cell) (vis : Finset Cell) (acc : List ℕ),
    (∀ d ∈ vis, ∀ o : Object, occ d = some o → isValidType o = true →
      ∀ n ∈ getPossiblePositions W L d, n ∈ vis) →
    (∀ c : Cell, c ∈ gridFinset W L → occupiedValid occ c = true →
      c ∉ vis → c ∈ rem) →
    (acc.sum = ∑ S ∈ (specComponents W L occ).filter (fun S => S ⊆ vis), S.card ∧
     acc.length = ((specComponents W L occ).filter (fun S => S ⊆ vis)).card) →
    ((avgLoop W L occ rem vis acc).sum = ∑ S ∈ specComponents W L occ, S.card ∧
     (avgLoop W L occ rem vis acc).length = (specComponents W L occ).card) := by
  intro rem
  induction rem with
  | nil =>
    intro vis acc hcl hcov hsz
    have hall : (specComponents W L occ).filter (fun S => S ⊆ vis) =
        specComponents W L occ := by
      apply Finset.filter_true_of_mem
      intro S hS x hx
      obtain ⟨-, hprops⟩ := mem_specComponents_props W L occ S hS
      obtain ⟨hxg, hxv⟩ := hprops x hx
      by_contra hxnv
      exact absurd (hcov x hxg hxv hxnv) (List.not_mem_nil x)
    rw [hall] at hsz
    simpa [avgLoop] using hsz
  | cons pos rest ih =>
    intro vis acc hcl hcov hsz
    rw [avgLoop]
    by_cases hpv : pos ∈ vis
    · rw [if_pos hpv]
      apply ih vis acc hcl ?_ hsz
      intro c hcg hcv hcnv
      rcases List.mem_cons.mp (hcov c hcg hcv hcnv) with heq | hr
      · exact absurd (heq ▸ hpv) hcnv
      · exact hr
    · rw [if_neg hpv]
      cases ho : occ pos with
      | none =>
        dsimp only
        apply ih (insert pos vis) acc
        · intro d hd o hdo hval n hn
          rcases Finset.mem_insert.mp hd with heq | hd'
          · rw [heq, ho] at hdo
            exact Option.noConfusion hdo
          · exact Finset.mem_insert_of_mem (hcl d hd' o hdo hval n hn)
        · intro c hcg hcv hcnv
          have hc1 : c ∉ vis := fun h => hcnv (Finset.mem_insert_of_mem h)
          rcases List.mem_cons.mp (hcov c hcg hcv hc1) with heq | hr
          · exact absurd (heq ▸ Finset.mem_insert_self pos vis) hcnv
          · exact hr
        · have hfeq : (specComponents W L occ).filter (fun S => S ⊆ insert pos vis) =
              (specComponents W L occ).filter (fun S => S ⊆ vis) := by
            apply Finset.filter_congr
            intro S hS
            constructor
            · intro hsub x hx
              rcases Finset.mem_insert.mp (hsub hx) with heq | hxv
              · obtain ⟨-, hprops⟩ := mem_specComponents_props W L occ S hS
                obtain ⟨o', ho', -⟩ := (occupiedValid_iff occ x).mp (hprops x hx).2
                rw [heq, ho] at ho'
                exact Option.noConfusion ho'
              · exact hxv
            · intro hsub
              exact hsub.trans (Finset.subset_insert pos vis)
          rw [hfeq]
          exact hsz
      | some o =>
        dsimp only
        have hov : isValidType o = true := OV pos o ho
        rw [if_pos hov]
        obtain ⟨hcount, hvissub, hcompsub, hnew, hcl'⟩ :=
          bfsCluster_spec W L occ o pos vis OinB H ho hpv hov hcl
        have hposb : inBounds W L pos = true := OinB pos o ho
        have hposR : pos ∈ (bfsCluster W L occ pos o vis).2 :=
          hcompsub (self_mem_specComponent W L occ pos)
        have hrpos : 0 < (bfsCluster W L occ pos o vis).1 := by
          rw [hcount]
          exact Finset.card_pos.mpr ⟨pos, self_mem_specComponent W L occ pos⟩
        rw [if_pos hrpos]
        apply ih (bfsCluster W L occ pos o vis).2 (acc ++ [(bfsCluster W L occ pos o vis).1]) hcl'
        · intro c hcg hcv hcnv
          have hc1 : c ∉ vis := fun h => hcnv (hvissub h)
          rcases List.mem_cons.mp (hcov c hcg hcv hc1) with heq | hr
          · exact absurd (heq ▸ hposR) hcnv
          · exact hr
        · have hcomp_mem : specComponent W L occ pos ∈ specComponents W L occ := by
            rw [mem_specComponents_iff]
            exact ⟨pos, (mem_gridFinset W L pos).mpr hposb,
              (occupiedValid_iff occ pos).mpr ⟨o, ho, hov⟩, rfl⟩
          have hcomp_not : specComponent W L occ pos ∉
              (specComponents W L occ).filter (fun S => S ⊆ vis) := by
            intro hmem
            have := (Finset.mem_filter.mp hmem).2 (self_mem_specComponent W L occ pos)
            exact hpv this
          have hfeq : (specComponents W L occ).filter
                (fun S => S ⊆ (bfsCluster W L occ pos o vis).2) =
              insert (specComponent W L occ pos)
                ((specComponents W L occ).filter (fun S => S ⊆ vis)) := by
            ext S
            rw [Finset.mem_filter, Finset.mem_insert, Finset.mem_filter]
            constructor
            · rintro ⟨hS, hsub⟩
              by_cases hSv : S ⊆ vis
              · exact Or.inr ⟨hS, hSv⟩
              · obtain ⟨x, hx, hxnv⟩ := Finset.not_subset.mp hSv
                obtain ⟨-, hprops⟩ := mem_specComponents_props W L occ S hS
                obtain ⟨o', ho', -⟩ := (occupiedValid_iff occ x).mp (hprops x hx).2
                have hxc : x ∈ specComponent W L occ pos :=
                  hnew x (hsub hx) hxnv o' ho'
                exact Or.inl (specComponents_eq_of_mem W L occ OinB S hS x hx pos
                  hposb hxc)
            · rintro (heq | ⟨hS, hsub⟩)
              · exact ⟨heq ▸ hcomp_mem, heq ▸ hcompsub⟩
              · exact ⟨hS, hsub.trans hvissub⟩
          rw [hfeq, Finset.sum_insert hcomp_not,
            Finset.card_insert_of_not_mem hcomp_not]
          obtain ⟨hs1, hs2⟩ := hsz
          constructor
          · rw [List.sum_append, hs1, hcount]
            simp [Nat.add_comm]
          · rw [List.length_append, hs2]
            simp

/-- **C1** (amended): when no two grid-adjacent occupied cells hold distinct
object references (the blocking hypothesis `H`), every occupant is in bounds
and of a valid category, `averageClusterSize` equals the specification's
partition semantics: the arithmetic mean of the sizes of the connected
components of the occupied cells under same-reference adjacency, or 0 when
no components exist.  Without `H` the claim fails: the BFS marks non-matching
dequeued neighbours as visited, blocking them as later seeds (see the
counterexample). -/
theorem averageClusterSize_eq_spec (W L : ℕ) (occ : Cell → Option Object)
    (OinB : ∀ (c : Cell) (o : Object), occ c = some o → inBounds W L c = true)
    (H : ∀ (c d : Cell), d ∈ getPossiblePositions W L c →
      ∀ (o o' : Object), occ c = some o → occ d = some o' → o = o')
    (OV : ∀ (c : Cell) (o : Object), occ c = some o → isValidType o = true) :
    averageClusterSize W L occ = specAverageClusterSize W L occ := by
  have hf0 : (specComponents W L occ).filter (fun S => S ⊆ (∅ : Finset Cell)) = ∅ := by
    rw [Finset.filter_eq_empty_iff]
    intro S hS hsub
    obtain ⟨⟨x, hx⟩, -⟩ := mem_specComponents_props W L occ S hS
    exact absurd (hsub hx) (Finset.not_mem_empty x)
  obtain ⟨h1, h2⟩ := avgLoop_spec W L occ OinB H OV (cellList W L) ∅ []
    (fun d hd => absurd hd (Finset.not_mem_empty d))
    (fun c hcg _ _ => (mem_cellList W L c).mpr ((mem_gridFinset W L c).mp hcg))
    (by refine ⟨?_, ?_⟩ <;> rw [hf0] <;> simp)
  simp only [averageClusterSize, specAverageClusterSize]
  by_cases hc : specComponents W L occ = ∅
  · have hxs : avgLoop W L occ (cellList W L) ∅ [] = [] :=
      List.length_eq_zero.mp (by rw [h2, hc, Finset.card_empty])
    rw [hxs, hc]
    simp
  · have hlen : (avgLoop W L occ (cellList W L) ∅ []).length ≠ 0 := by
      rw [h2]
      exact Finset.card_ne_zero.mpr (Finset.nonempty_iff_ne_empty.mpr hc)
    have hne : ¬ ((avgLoop W L occ (cellList W L) ∅ []).isEmpty = true) := by
      intro h
      rw [List.isEmpty_iff] at h
      rw [h] at hlen
      exact hlen rfl
    rw [if_neg hne, if_neg hc, h1, h2, Nat.cast_sum]

/-- Witness for C1 at a concrete input: the 1×3 grid sharing one Food
reference between the two non-adjacent end cells satisfies all three
hypotheses, and there the code agrees with the specification mean. -/
theorem averageClusterSize_eq_spec_witness :
    averageClusterSize 1 3 occSharedFood = specAverageClusterSize 1 3 occSharedFood :=
  averageClusterSize_eq_spec 1 3 occSharedFood
    (by
      intro c o h
      simp only [occSharedFood] at h
      by_cases hc : c = ((0:ℤ),(0:ℤ)) ∨ c = ((0:ℤ),(2:ℤ))
      · rcases hc with hc | hc <;> rw [hc] <;> decide
      · rw [if_neg hc] at h
        exact Option.noConfusion h)
    (by
      intro c d _ o o' hc hd
      simp only [occSharedFood] at hc hd
      by_cases h1 : c = ((0:ℤ),(0:ℤ)) ∨ c = ((0:ℤ),(2:ℤ))
      · by_cases h2 : d = ((0:ℤ),(0:ℤ)) ∨ d = ((0:ℤ),(2:ℤ))
        · rw [if_pos h1] at hc
          rw [if_pos h2] at hd
          exact (Option.some_inj.mp hc).symm.trans (Option.some_inj.mp hd)
        · rw [if_neg h2] at hd
          exact Option.noConfusion hd
      · rw [if_neg h1] at hc
        exact Option.noConfusion hc)
    (by
      intro c o h
      simp only [occSharedFood] at h
      by_cases hc : c = ((0:ℤ),(0:ℤ)) ∨ c = ((0:ℤ),(2:ℤ))
      · rw [if_pos hc] at h
        rw [← Option.some_inj.mp h]
        decide
      · rw [if_neg hc] at h
        exact Option.noConfusion h)

/-- Counterexample to C1 as stated: on the 1×3 grid with `foodA` at (0,0)
and a distinct reference `foodB` at (0,1) and (0,2), the same-reference
partition has components of sizes 1 and 2 (mean 3/2), but the code returns
1: the BFS seeded at (0,0) marks (0,1) visited without counting it, so the
`foodB` cluster is later explored only from (0,2) and also reports size 1. -/
theorem averageClusterSize_partition_counterexample :
    averageClusterSize 1 3 occSplitCluster = 1 ∧
    specAverageClusterSize 1 3 occSplitCluster = 3 / 2 := by
  constructor
  · have h : avgLoop 1 3 occSplitCluster (cellList 1 3) ∅ [] = [1, 1] := by decide
    simp only [averageClusterSize]
    rw [h]
    norm_num [List.isEmpty]
  · have hcard : (specComponents 1 3 occSplitCluster).card = 2 := by decide
    have hsum : ∑ S ∈ specComponents 1 3 occSplitCluster, S.card = 3 := by decide
    have hne : ¬ (specComponents 1 3 occSplitCluster = ∅) := by decide
    simp only [specAverageClusterSize]
    rw [if_neg hne, ← Nat.cast_sum, hsum, hcard]
    norm_num
